import Mathlib

/-!
# Fortran I/O statement state (`flang/runtime/io-stmt.h`)

A shallow embedding of the dispatch handle `IoStatementState`, its shared
character-scanning members (`SkipSpaces`, `GetNextNonBlank`, `CueUpInput`),
the formatted-statement check `CheckFormattedStmtType`, the per-item
reset of list-directed input state, and a model of the list-directed
`GetNextDataEdit`, which the header only declares.

Loops of the source are functions with an explicit iteration budget
(`fuel`); a result of `none` at the outer level means the budget ran out
before the loop left, and every theorem about a result shows that a
budget exists and gives the result.
-/

namespace Fortran.runtime.io

/-! ## Characters, records and the connection cursor -/

/-- Code point of the space character, `' '` in the source. -/
def space : Nat := 32

/-- Code point of the horizontal tab, `'\t'` in the source. -/
def tab : Nat := 9

/-- Code point of the exclamation mark, `'!'` in the source. -/
def bang : Nat := 33

/-- Modelled from the spec: what `GetCurrentChar` yields for a present
character, the decoded `char32_t` code point together with its byte width
(the `byteCount` out-parameter). A present character occupies at least one
byte. -/
structure InputChar where
  ch : Nat
  bytes : Nat
  bytes_pos : 0 < bytes
deriving DecidableEq

/-- A space or a tab: the characters that the scanning loops skip. -/
def isBlank (c : InputChar) : Bool := c.ch == space || c.ch == tab

/-- Total byte width of a run of characters. -/
def byteLen : List InputChar → Nat
  | [] => 0
  | c :: cs => c.bytes + byteLen cs

/-- The character that starts at byte offset `pos` of a record, if any.
Past the last character there is none; an offset that falls inside a
multi-byte character decodes nothing. -/
def charAt : List InputChar → Nat → Option InputChar
  | [], _ => none
  | c :: cs, pos =>
    if pos = 0 then some c
    else if c.bytes ≤ pos then charAt cs (pos - c.bytes)
    else none

/-- Modelled from the spec: the part of a statement's state that the
scanning members of `IoStatementState` act on. The connection (absent
`connection.h`) is the current record, the records after it, and the byte
offset of the cursor in the current record; `inNamelist` is
`mutableModes().inNamelist`; `chars_` is the `std::size_t` count kept by
`FormattedIoStatementState<Direction::Input>` for `READ(SIZE=)`. -/
structure IoStatementState where
  record : List InputChar
  laterRecords : List (List InputChar)
  positionInRecord : Nat
  inNamelist : Bool
  chars_ : Nat
deriving DecidableEq

/-- Modelled from the spec: `GetCurrentChar` (declared in the header, body
absent) returns the next decoded character at the current position without
consuming it, together with its byte width, and none once the current
record is exhausted. -/
def GetCurrentChar (s : IoStatementState) : Option InputChar :=
  charAt s.record s.positionInRecord

/-- Modelled from the spec: `HandleRelativePosition` (declared, body absent)
moves the position in the current record relatively by `n` bytes; the
position does not go below the start of the record. -/
def HandleRelativePosition (s : IoStatementState) (n : Int) : IoStatementState :=
  { s with positionInRecord := Int.toNat ((s.positionInRecord : Int) + n) }

/-- Modelled from the spec: `GotChar` (declared, body absent) adds to the
count of characters read for edit descriptors; the argument is a signed
`int` and may be negative, the count is a `std::size_t` and wraps at
`2 ^ 64`. -/
def GotChar (s : IoStatementState) (n : Int) : IoStatementState :=
  { s with chars_ := Int.toNat (((s.chars_ : Int) + n) % 2 ^ 64) }

/-- Modelled from the spec: `AdvanceRecord` (declared, body absent), called
with its default argument of one record, moves to the start of the next
record and reports success; at true end of input there is no next record,
it reports failure and the cursor stays. -/
def AdvanceRecord (s : IoStatementState) : Bool × IoStatementState :=
  match s.laterRecords with
  | [] => (false, s)
  | r :: rs => (true, { s with record := r, laterRecords := rs, positionInRecord := 0 })

/-! ## `SkipSpaces` -/

/-- The loop condition of `SkipSpaces`: `!remaining || *remaining > 0`. -/
def skipSpacesCond (remaining : Option Int) : Bool :=
  match remaining with
  | none => true
  | some r => decide (0 < r)

/-- `IoStatementState::SkipSpaces`. The reference parameter `remaining` is
returned next to the result. Each unit of `fuel` pays for one evaluation of
the loop condition; the outer `none` means the fuel ran out.

`static_cast<std::size_t>(*remaining)` is applied only under the loop
condition `*remaining > 0`, where it preserves the value (`Int.toNat`), and
`*remaining -= byteCount` runs only when `byteCount ≤ *remaining`, so the
`int` arithmetic does not wrap. -/
def SkipSpaces : Nat → Option Int → IoStatementState →
    Option (Option Nat × Option Int × IoStatementState)
  | 0, _, _ => none
  | fuel + 1, remaining, s =>
    if skipSpacesCond remaining then
      match GetCurrentChar s with
      | some c =>
        if c.ch != space && c.ch != tab then
          some (some c.ch, remaining, s)
        else
          match remaining with
          | some r =>
            if Int.toNat r < c.bytes then
              some (none, remaining, s)
            else
              SkipSpaces fuel (some (r - (c.bytes : Int)))
                (HandleRelativePosition (GotChar s (c.bytes : Int)) (c.bytes : Int))
          | none => SkipSpaces fuel none (HandleRelativePosition s (c.bytes : Int))
      | none => some (none, remaining, s)
    else
      some (none, remaining, s)


/-! ## `GetNextNonBlank` -/

/-- The loop condition of `GetNextNonBlank`:
`!ch || *ch == ' ' || *ch == '\t' || (inNamelist && *ch == '!')`. -/
def getNextNonBlankCond (inNamelist : Bool) (ch : Option InputChar) : Bool :=
  match ch with
  | none => true
  | some c => c.ch == space || c.ch == tab || (inNamelist && c.ch == bang)

/-- The test that selects the first branch of the loop body of
`GetNextNonBlank`: `ch && (*ch == ' ' || *ch == '\t')`. -/
def getNextNonBlankSkips (ch : Option InputChar) : Bool :=
  match ch with
  | none => false
  | some c => c.ch == space || c.ch == tab

/-- The `while` loop of `IoStatementState::GetNextNonBlank`, entered with
the local `ch` (the character and the `byteCount` that `GetCurrentChar`
last gave). Each unit of `fuel` pays for one evaluation of the loop
condition; the outer `none` means the fuel ran out. -/
def GetNextNonBlankLoop : Nat → Bool → Option InputChar → IoStatementState →
    Option (Option InputChar × IoStatementState)
  | 0, _, _, _ => none
  | fuel + 1, inNamelist, ch, s =>
    if getNextNonBlankCond inNamelist ch then
      if getNextNonBlankSkips ch then
        let s1 := HandleRelativePosition s (((ch.map InputChar.bytes).getD 0 : Nat) : Int)
        GetNextNonBlankLoop fuel inNamelist (GetCurrentChar s1) s1
      else
        match AdvanceRecord s with
        | (false, s1) => some (none, s1)
        | (true, s1) => GetNextNonBlankLoop fuel inNamelist (GetCurrentChar s1) s1
    else
      some (ch, s)

/-- `IoStatementState::GetNextNonBlank`. A returned character comes with
the byte count left in the `byteCount` reference parameter. -/
def GetNextNonBlank (fuel : Nat) (s : IoStatementState) :
    Option (Option InputChar × IoStatementState) :=
  GetNextNonBlankLoop fuel s.inNamelist (GetCurrentChar s) s

/-! ## `CueUpInput` -/

/-- Modelled from the spec: the two observations that `CueUpInput` makes of
a `DataEdit` (declared in the absent `format.h`): whether the edit is
list-directed (`IsListDirected()`) and its optional field width. -/
structure DataEdit where
  IsListDirected : Bool
  width : Option Int
deriving DecidableEq

/-- `IoStatementState::CueUpInput`. The outer `none` means that the loop it
called ran out of fuel. -/
def CueUpInput (fuel : Nat) (edit : DataEdit) (s : IoStatementState) :
    Option (Option Int × IoStatementState) :=
  if edit.IsListDirected then
    match GetNextNonBlank fuel s with
    | none => none
    | some (_, s1) => some (none, s1)
  else
    let remaining : Option Int := if 0 < edit.width.getD 0 then edit.width else none
    match SkipSpaces fuel remaining s with
    | none => none
    | some (_, remaining1, s1) => some (remaining1, s1)

/-! ## Specification-level views of the input -/

/-- The first character of the given records that `GetNextNonBlank` is to
stop on: records are taken in order, leading blanks of a record are passed
over, a record with nothing else is passed over, and in namelist mode so
is a record whose first non-blank character is `'!'` (a comment). -/
def firstSignificant (inNamelist : Bool) : List (List InputChar) → Option InputChar
  | [] => none
  | r :: rs =>
    match r.dropWhile isBlank with
    | [] => firstSignificant inNamelist rs
    | c :: _ => if inNamelist && c.ch == bang then firstSignificant inNamelist rs else some c

/-- Number of loop iterations that certainly suffice for `GetNextNonBlank`
on the given records: one per character and one per record, plus the
final test. -/
def scanBound : List (List InputChar) → Nat
  | [] => 1
  | r :: rs => r.length + 1 + scanBound rs

/-! ## The class lattice and the handle's variant -/

/-- The enumeration `Direction`. -/
inductive Direction where
  | Output
  | Input
deriving DecidableEq

/-- The classes that the header declares or derives from; a class template
over `Direction` carries its argument (the `CHAR` parameter of the
formatted states has its default everywhere in the header). -/
inductive ClassId where
  | InputStatementState
  | OutputStatementState
  | FormattedIoStatementState (d : Direction)
  | IoErrorHandler
  | IoStatementBase
  | ListDirectedStatementState (d : Direction)
  | InternalIoStatementState (d : Direction)
  | InternalFormattedIoStatementState (d : Direction)
  | InternalListIoStatementState (d : Direction)
  | ExternalIoStatementBase
  | ExternalIoStatementState (d : Direction)
  | ExternalFormattedIoStatementState (d : Direction)
  | ExternalListIoStatementState (d : Direction)
  | ExternalUnformattedIoStatementState (d : Direction)
  | ChildIoStatementState (d : Direction)
  | ChildFormattedIoStatementState (d : Direction)
  | ChildListIoStatementState (d : Direction)
  | ChildUnformattedIoStatementState (d : Direction)
  | OpenStatementState
  | CloseStatementState
  | NoUnitIoStatementState
  | NoopStatementState
  | InquireUnitState
  | InquireNoUnitState
  | InquireUnconnectedFileState
  | InquireIOLengthState
  | ExternalMiscIoStatementState
  | ErroneousIoStatementState
deriving DecidableEq

/-- The alias template `IoDirectionState<D>`. -/
def IoDirectionState : Direction → ClassId
  | Direction.Input => ClassId.InputStatementState
  | Direction.Output => ClassId.OutputStatementState

/-- The public direct base classes of each class, in the order of its
base-specifier list. -/
def directBases : ClassId → List ClassId
  | ClassId.IoStatementBase => [ClassId.IoErrorHandler]
  | ClassId.ListDirectedStatementState d => [ClassId.FormattedIoStatementState d]
  | ClassId.InternalIoStatementState d => [ClassId.IoStatementBase, IoDirectionState d]
  | ClassId.InternalFormattedIoStatementState d =>
    [ClassId.InternalIoStatementState d, ClassId.FormattedIoStatementState d]
  | ClassId.InternalListIoStatementState d =>
    [ClassId.InternalIoStatementState d, ClassId.ListDirectedStatementState d]
  | ClassId.ExternalIoStatementBase => [ClassId.IoStatementBase]
  | ClassId.ExternalIoStatementState d => [ClassId.ExternalIoStatementBase, IoDirectionState d]
  | ClassId.ExternalFormattedIoStatementState d =>
    [ClassId.ExternalIoStatementState d, ClassId.FormattedIoStatementState d]
  | ClassId.ExternalListIoStatementState d =>
    [ClassId.ExternalIoStatementState d, ClassId.ListDirectedStatementState d]
  | ClassId.ExternalUnformattedIoStatementState d => [ClassId.ExternalIoStatementState d]
  | ClassId.ChildIoStatementState d => [ClassId.IoStatementBase, IoDirectionState d]
  | ClassId.ChildFormattedIoStatementState d =>
    [ClassId.ChildIoStatementState d, ClassId.FormattedIoStatementState d]
  | ClassId.ChildListIoStatementState d =>
    [ClassId.ChildIoStatementState d, ClassId.ListDirectedStatementState d]
  | ClassId.ChildUnformattedIoStatementState d => [ClassId.ChildIoStatementState d]
  | ClassId.OpenStatementState => [ClassId.ExternalIoStatementBase]
  | ClassId.CloseStatementState => [ClassId.ExternalIoStatementBase]
  | ClassId.NoUnitIoStatementState => [ClassId.IoStatementBase]
  | ClassId.NoopStatementState => [ClassId.NoUnitIoStatementState]
  | ClassId.InquireUnitState => [ClassId.ExternalIoStatementBase]
  | ClassId.InquireNoUnitState => [ClassId.NoUnitIoStatementState]
  | ClassId.InquireUnconnectedFileState => [ClassId.NoUnitIoStatementState]
  | ClassId.InquireIOLengthState =>
    [ClassId.NoUnitIoStatementState, ClassId.OutputStatementState]
  | ClassId.ExternalMiscIoStatementState => [ClassId.ExternalIoStatementBase]
  | ClassId.ErroneousIoStatementState => [ClassId.IoStatementBase]
  | ClassId.InputStatementState => []
  | ClassId.OutputStatementState => []
  | ClassId.FormattedIoStatementState _ => []
  | ClassId.IoErrorHandler => []

/-- `std::is_convertible_v<X &, A &>` for classes of the header: `X` is `A`
or reaches `A` through public bases within `depth` steps. No class of the
header reaches a base along two paths, so no conversion is ambiguous. -/
def isConvertible : Nat → ClassId → ClassId → Bool
  | 0, x, a => x == a
  | depth + 1, x, a => x == a || (directBases x).any (fun b => isConvertible depth b a)

/-- The longest chain of bases in the header has four steps
(`ExternalFormattedIoStatementState`, `ExternalIoStatementState`,
`ExternalIoStatementBase`, `IoStatementBase`, `IoErrorHandler`). -/
def latticeDepth : Nat := 4

/-- The alternatives of the variant `u_`, in the order of its declaration;
each stands for a `std::reference_wrapper` of the class. -/
def variantAlternatives : List ClassId :=
  [ ClassId.OpenStatementState,
    ClassId.CloseStatementState,
    ClassId.NoopStatementState,
    ClassId.InternalFormattedIoStatementState Direction.Output,
    ClassId.InternalFormattedIoStatementState Direction.Input,
    ClassId.InternalListIoStatementState Direction.Output,
    ClassId.InternalListIoStatementState Direction.Input,
    ClassId.ExternalFormattedIoStatementState Direction.Output,
    ClassId.ExternalFormattedIoStatementState Direction.Input,
    ClassId.ExternalListIoStatementState Direction.Output,
    ClassId.ExternalListIoStatementState Direction.Input,
    ClassId.ExternalUnformattedIoStatementState Direction.Output,
    ClassId.ExternalUnformattedIoStatementState Direction.Input,
    ClassId.ChildFormattedIoStatementState Direction.Output,
    ClassId.ChildFormattedIoStatementState Direction.Input,
    ClassId.ChildListIoStatementState Direction.Output,
    ClassId.ChildListIoStatementState Direction.Input,
    ClassId.ChildUnformattedIoStatementState Direction.Output,
    ClassId.ChildUnformattedIoStatementState Direction.Input,
    ClassId.InquireUnitState,
    ClassId.InquireNoUnitState,
    ClassId.InquireUnconnectedFileState,
    ClassId.InquireIOLengthState,
    ClassId.ExternalMiscIoStatementState,
    ClassId.ErroneousIoStatementState ]

/-- The class of the alternative at an index of the variant `u_`. -/
def alternativeAt (i : Fin 25) : ClassId :=
  variantAlternatives.getD i.val ClassId.ErroneousIoStatementState

/-- `IoStatementState::get_if<A>()`, observed as "the result is not null":
the visitor returns the address of the bound state when a reference to it
converts to `A &`, and `nullptr` otherwise. -/
def get_if (u_ : Fin 25) (a : ClassId) : Bool :=
  isConvertible latticeDepth (alternativeAt u_) a

/-- Modelled from the spec: the error handler of a statement (absent
`io-error.h`), observed through `InError()`: an error is pending when the
recorded status is not 0, the success value. -/
structure IoErrorHandler where
  ioStat_ : Int
deriving DecidableEq

/-- Modelled from the spec: `IoErrorHandler::InError`, whether an error is
pending. -/
def IoErrorHandler.InError (h : IoErrorHandler) : Bool := h.ioStat_ != 0

/-- How a call ends: it returns a value, or `Crash` ends the program. The
crash keeps the direction word of its message (`"output"` or `"input"`). -/
inductive Outcome (α : Type) where
  | returned (value : α)
  | crashed (notFormatted : Direction)
deriving DecidableEq

/-- `IoStatementState::CheckFormattedStmtType<D>`, for the handle bound to
alternative `u_` whose `GetIoErrorHandler()` is `handler`. The handler is
handed back next to the result. The `name` argument only feeds the crash
message and is left out. -/
def CheckFormattedStmtType (D : Direction) (u_ : Fin 25) (handler : IoErrorHandler) :
    Outcome (Bool × IoErrorHandler) :=
  if get_if u_ (ClassId.FormattedIoStatementState D) then
    Outcome.returned (true, handler)
  else
    if !handler.InError then
      Outcome.crashed D
    else
      Outcome.returned (false, handler)

/-- The formatting modes of the data model. -/
inductive FormattingMode where
  | formatted
  | listDirected
  | unformatted
deriving DecidableEq

/-- The formatting mode of a concrete statement state in the data model:
the formatted, list-directed and unformatted specialisations of the
internal, external and child data-transfer states; other statements have
none. -/
def formattingMode : ClassId → Option FormattingMode
  | ClassId.InternalFormattedIoStatementState _ => some FormattingMode.formatted
  | ClassId.ExternalFormattedIoStatementState _ => some FormattingMode.formatted
  | ClassId.ChildFormattedIoStatementState _ => some FormattingMode.formatted
  | ClassId.InternalListIoStatementState _ => some FormattingMode.listDirected
  | ClassId.ExternalListIoStatementState _ => some FormattingMode.listDirected
  | ClassId.ChildListIoStatementState _ => some FormattingMode.listDirected
  | ClassId.ExternalUnformattedIoStatementState _ => some FormattingMode.unformatted
  | ClassId.ChildUnformattedIoStatementState _ => some FormattingMode.unformatted
  | _ => none

/-- The transfer direction of a concrete data-transfer state: the argument
of its class template; other statements have none. -/
def transferDirection : ClassId → Option Direction
  | ClassId.InternalFormattedIoStatementState d => some d
  | ClassId.ExternalFormattedIoStatementState d => some d
  | ClassId.ChildFormattedIoStatementState d => some d
  | ClassId.InternalListIoStatementState d => some d
  | ClassId.ExternalListIoStatementState d => some d
  | ClassId.ChildListIoStatementState d => some d
  | ClassId.ExternalUnformattedIoStatementState d => some d
  | ClassId.ChildUnformattedIoStatementState d => some d
  | _ => none

/-! ## Completion -/

/-- The members of `IoStatementBase`: the `IoErrorHandler` it derives from
and the completion flag. -/
structure IoStatementBase where
  handler : IoErrorHandler
  completedOperation_ : Bool
deriving DecidableEq

/-- `IoStatementBase::CompleteOperation`. -/
def IoStatementBase.CompleteOperation (b : IoStatementBase) : IoStatementBase :=
  { b with completedOperation_ := true }

/-- A concrete statement state: its `IoStatementBase` subobject and the
members `σ` that its other classes add. -/
structure StatementState (σ : Type) where
  base : IoStatementBase
  derived : σ

/-- The classes of the header that declare a member `CompleteOperation`. -/
def declaresCompleteOperation : ClassId → Bool
  | ClassId.IoStatementBase => true
  | ClassId.InternalFormattedIoStatementState _ => true
  | ClassId.ExternalIoStatementState _ => true
  | ClassId.ExternalFormattedIoStatementState _ => true
  | ClassId.ChildIoStatementState _ => true
  | ClassId.ChildFormattedIoStatementState _ => true
  | ClassId.OpenStatementState => true
  | ClassId.NoUnitIoStatementState => true
  | ClassId.ExternalMiscIoStatementState => true
  | _ => false

/-- Member lookup of `CompleteOperation` in class `x`: the class itself when
it declares the member, else what its bases give. In the header at most one
base of a class leads to a declaration, so the lookup is not ambiguous. -/
def lookupCompleteOperation : Nat → ClassId → Option ClassId
  | 0, x => if declaresCompleteOperation x then some x else none
  | depth + 1, x =>
    if declaresCompleteOperation x then some x
    else (directBases x).findSome? (lookupCompleteOperation depth)

/-- Modelled from the spec: `CompleteOperation` of a class that declares
its own (the bodies are absent from the header). A call after the first is
a no-op; the first call does the completion work of the class, `work`, and
has the base set the completion flag. -/
def CompleteOperationOverride {σ : Type} (work : StatementState σ → StatementState σ)
    (s : StatementState σ) : StatementState σ :=
  if s.base.completedOperation_ then s
  else { work s with base := IoStatementBase.CompleteOperation (work s).base }

/-- Modelled from the spec: `IoStatementState::CompleteOperation` (declared,
body absent) projects itself into the active alternative: the member that
lookup finds in the class of the bound state runs, which is
`IoStatementBase::CompleteOperation` or an overriding one. -/
def CompleteOperation {σ : Type} (u_ : Fin 25) (work : StatementState σ → StatementState σ)
    (s : StatementState σ) : StatementState σ :=
  if lookupCompleteOperation latticeDepth (alternativeAt u_) = some ClassId.IoStatementBase then
    { s with base := IoStatementBase.CompleteOperation s.base }
  else
    CompleteOperationOverride work s

/-! ## List-directed input state -/

/-- `FormattedIoStatementState<Direction::Input>`. -/
structure FormattedIoStatementStateInput where
  chars_ : Nat
deriving DecidableEq

/-- `ListDirectedStatementState<Direction::Input>`. The type
`SavedPosition` is declared outside the header and is a parameter. -/
structure ListDirectedStatementStateInput (SavedPosition : Type) extends
    FormattedIoStatementStateInput where
  remaining_ : Int
  repeatPosition_ : Option SavedPosition
  eatComma_ : Bool
  hitSlash_ : Bool
  realPart_ : Bool
  imaginaryPart_ : Bool
  inNamelistArray_ : Bool
deriving DecidableEq

/-- `ListDirectedStatementState<Direction::Input>::ResetForNextNamelistItem`. -/
def ListDirectedStatementStateInput.ResetForNextNamelistItem {SavedPosition : Type}
    (l : ListDirectedStatementStateInput SavedPosition) (inNamelistArray : Bool) :
    ListDirectedStatementStateInput SavedPosition :=
  { l with
    remaining_ := 0
    eatComma_ := false
    realPart_ := false
    imaginaryPart_ := false
    inNamelistArray_ := inNamelistArray }

/-- The member `ResetForNextNamelistItem` called on a concrete list-directed
input statement (`InternalListIoStatementState<Direction::Input>` and its
external and child siblings), which inherits it. -/
def StatementState.ResetForNextNamelistItem {SavedPosition : Type}
    (st : StatementState (ListDirectedStatementStateInput SavedPosition))
    (inNamelistArray : Bool) : StatementState (ListDirectedStatementStateInput SavedPosition) :=
  { st with derived := st.derived.ResetForNextNamelistItem inNamelistArray }

/-- The state of a `ListDirectedStatementState<Direction::Input>` as its
default member initialisers leave it when a statement begins. -/
def ListDirectedStatementStateInput.initial {SavedPosition : Type} :
    ListDirectedStatementStateInput SavedPosition :=
  { chars_ := 0
    remaining_ := 0
    repeatPosition_ := none
    eatComma_ := false
    hitSlash_ := false
    realPart_ := false
    imaginaryPart_ := false
    inNamelistArray_ := false }

/-! ## List-directed `GetNextDataEdit` -/

/-- Code point of the comma, the value separator of list-directed input. -/
def comma : Nat := 44

/-- Code point of the slash, which ends a list-directed input list. -/
def slash : Nat := 47

/-- Code point of the asterisk of a repeat count `r*`. -/
def asterisk : Nat := 42

/-- Code point of the left parenthesis that opens a complex value. -/
def leftParen : Nat := 40

/-- Modelled from the spec: the descriptor of a data edit that list-directed
input yields, an ordinary list-directed value or `ListDirectedNullValue`
(the descriptor that the header's comment on `GetNextDataEdit` names). -/
inductive ListDirectedDescriptor where
  | ListDirected
  | ListDirectedNullValue
deriving DecidableEq

/-- Modelled from the spec: what the caller of the list-directed
`GetNextDataEdit` sees of the `DataEdit` it gets (absent `format.h`): the
descriptor and the repeat count, which the caller's maximum bounds. -/
structure ListDirectedDataEdit where
  descriptor : ListDirectedDescriptor
  repeatCount : Int
deriving DecidableEq

/-- The list-directed input state of the model: `SavedPosition` is the byte
offset of the cursor in the current record. -/
abbrev ListInputState : Type := ListDirectedStatementStateInput Nat

/-- The characters of a record from byte offset `pos` on; none when the
offset is past the end or inside a character. -/
def charsFrom : List InputChar → Nat → List InputChar
  | [], _ => []
  | c :: cs, pos =>
    if pos = 0 then c :: cs
    else if c.bytes ≤ pos then charsFrom cs (pos - c.bytes)
    else []

/-- A decimal digit. -/
def isDigit (c : InputChar) : Bool := decide (48 ≤ c.ch) && decide (c.ch ≤ 57)

/-- The number that a run of decimal digits writes. -/
def digitsValue (digits : List InputChar) : Nat :=
  digits.foldl (fun v c => 10 * v + (c.ch - 48)) 0

/-- Modelled from the spec: a bare `r*` prefix at the head of the
characters ahead, digits that write a number `r > 0` and an asterisk right
after them. Gives `r` and the byte length of the prefix. -/
def repeatPrefix (ahead : List InputChar) : Option (Nat × Nat) :=
  match ahead.dropWhile isDigit with
  | c :: _ =>
    if c.ch == asterisk && decide (0 < digitsValue (ahead.takeWhile isDigit)) then
      some (digitsValue (ahead.takeWhile isDigit), byteLen (ahead.takeWhile isDigit) + c.bytes)
    else
      none
  | [] => none

/-- Modelled from the spec: the separator skipping of the list-directed
`GetNextDataEdit` ("skips value separators"): blanks, record ends and
namelist comments are passed by `GetNextNonBlank`, and when `eatComma_` is
set, one comma after the item consumed before is consumed with the blanks
after it. Gives the character the scan stops on, none at end of input. -/
def skipValueSeparator (fuel : Nat) (eatComma : Bool) (io : IoStatementState) :
    Option (Option InputChar × IoStatementState) :=
  match GetNextNonBlank fuel io with
  | none => none
  | some (none, io1) => some (none, io1)
  | some (some c, io1) =>
    if eatComma && c.ch == comma then
      GetNextNonBlank fuel (HandleRelativePosition io1 (c.bytes : Int))
    else
      some (some c, io1)

/-- Modelled from the spec: complex values are parsed as two successive
parts distinguished by `realPart_` and `imaginaryPart_`: after the real
part comes the imaginary part, after the imaginary part none is in
progress. -/
def advanceComplexPart (l : ListInputState) : ListInputState :=
  if l.imaginaryPart_ then { l with imaginaryPart_ := false }
  else if l.realPart_ then { l with realPart_ := false, imaginaryPart_ := true }
  else l

/-- Modelled from the spec:
`ListDirectedStatementState<Direction::Input>::GetNextDataEdit` (declared
in the header, body absent), after the header's comment ("Skips value
separators, handles repetition and null values. Vacant when '/' appears;
present with descriptor == ListDirectedNullValue when a null value
appears"), the comments on the members and the transitions of the spec:

* once `'/'` is seen (`hitSlash_`), further items are nullified: vacant;
* a repeat count in progress (`remaining_ > 0`) applies the value again:
  the cursor goes back to the saved position, no separator is scanned;
* otherwise value separators are skipped (`skipValueSeparator`) and
  `eatComma_` is set for the next item;
* at end of input the result is vacant; a `'/'` sets `hitSlash_` and the
  result is vacant; a separator met where a value should start is a null
  value, returned without consuming it;
* a value that starts with `r*` starts a repetition of `r` items, of which
  the edit takes at most `maxRepeat`; a `'('` starts the real part of a
  complex value.

The outer `none` means that `GetNextNonBlank` ran out of fuel. -/
def GetNextDataEdit (fuel : Nat) (maxRepeat : Int) (l : ListInputState)
    (io : IoStatementState) :
    Option (Option ListDirectedDataEdit × ListInputState × IoStatementState) :=
  if l.hitSlash_ then
    some (none, l, io)
  else if 0 < l.remaining_ then
    let n := min l.remaining_ maxRepeat
    let io1 : IoStatementState :=
      match l.repeatPosition_ with
      | some p => { io with positionInRecord := p }
      | none => io
    some (some { descriptor := ListDirectedDescriptor.ListDirected, repeatCount := n },
      { l with remaining_ := l.remaining_ - n }, io1)
  else
    let l0 := advanceComplexPart l
    match skipValueSeparator fuel l0.eatComma_ io with
    | none => none
    | some (none, io1) => some (none, { l0 with eatComma_ := true }, io1)
    | some (some c, io1) =>
      let l1 : ListInputState := { l0 with eatComma_ := true }
      if c.ch == slash then
        some (none, { l1 with hitSlash_ := true }, io1)
      else if c.ch == comma then
        some (some { descriptor := ListDirectedDescriptor.ListDirectedNullValue,
                     repeatCount := 1 }, l1, io1)
      else if l1.imaginaryPart_ then
        some (some { descriptor := ListDirectedDescriptor.ListDirected, repeatCount := 1 },
          l1, io1)
      else
        match repeatPrefix (charsFrom io1.record io1.positionInRecord) with
        | some (r, prefixBytes) =>
          let io2 := HandleRelativePosition io1 (prefixBytes : Int)
          let n := min (r : Int) maxRepeat
          some (some { descriptor := ListDirectedDescriptor.ListDirected, repeatCount := n },
            { l1 with remaining_ := (r : Int) - n,
                      repeatPosition_ := some io2.positionInRecord }, io2)
        | none =>
          if c.ch == leftParen then
            some (some { descriptor := ListDirectedDescriptor.ListDirected, repeatCount := 1 },
              { l1 with realPart_ := true }, HandleRelativePosition io1 (c.bytes : Int))
          else
            some (some { descriptor := ListDirectedDescriptor.ListDirected, repeatCount := 1 },
              l1, io1)

/-! ## Reading the items of a list -/

/-- What became of one item of an input list: left unassigned because the
data edit was vacant, a null value, or a value with the characters of its
field. -/
inductive ItemResult where
  | unassigned
  | null
  | value (field : List Nat)
deriving DecidableEq

/-- A character that ends a list-directed field: a blank, a comma or a
slash. -/
def isFieldEnd (c : InputChar) : Bool :=
  isBlank c || c.ch == comma || c.ch == slash

/-- Modelled from the spec: the reading of one list-directed field by the
per-item routine (outside the header), character by character as
`NextInField` gives them: a comma or a slash ends the field, as does a
blank or the end of the record. Gives the code points of the field. -/
def ReadListDirectedField (io : IoStatementState) : List Nat × IoStatementState :=
  let field := (charsFrom io.record io.positionInRecord).takeWhile (fun c => !isFieldEnd c)
  (field.map InputChar.ch, HandleRelativePosition io ((byteLen field : Nat) : Int))

/-- Modelled from the spec: the per-item routines of a list-directed READ of
`items` scalar items: each item asks for the next data edit with the
default maximum repeat of 1; a vacant edit leaves the item unassigned, a
null value leaves it as it is, and otherwise the field is read. The
statement's `IoStatementBase`, with the error handler, is carried along. -/
def ReadListItems (fuel : Nat) : Nat → StatementState ListInputState → IoStatementState →
    Option (List ItemResult × StatementState ListInputState × IoStatementState)
  | 0, st, io => some ([], st, io)
  | items + 1, st, io =>
    match GetNextDataEdit fuel 1 st.derived io with
    | none => none
    | some (none, l1, io1) =>
      (ReadListItems fuel items { st with derived := l1 } io1).map
        (fun rest => (ItemResult.unassigned :: rest.1, rest.2))
    | some (some edit, l1, io1) =>
      if edit.descriptor = ListDirectedDescriptor.ListDirectedNullValue then
        (ReadListItems fuel items { st with derived := l1 } io1).map
          (fun rest => (ItemResult.null :: rest.1, rest.2))
      else
        (ReadListItems fuel items { st with derived := l1 } (ReadListDirectedField io1).2).map
          (fun rest => (ItemResult.value (ReadListDirectedField io1).1 :: rest.1, rest.2))

/-! ## Example inputs -/

/-- A character of one byte. -/
def oneByte (ch : Nat) : InputChar := ⟨ch, 1, Nat.one_pos⟩

/-- A character of two bytes, as in a record of 16-bit characters. -/
def twoBytes (ch : Nat) : InputChar := ⟨ch, 2, Nat.succ_pos 1⟩

/-- A statement reading the single record `" \tA "`: space, tab, `A`, space. -/
def stateBlankTabA : IoStatementState :=
  { record := [oneByte 32, oneByte 9, oneByte 65, oneByte 32], laterRecords := [],
    positionInRecord := 0, inNamelist := false, chars_ := 0 }

/-- A statement reading the single record of two spaces. -/
def stateTwoBlanks : IoStatementState :=
  { record := [oneByte 32, oneByte 32], laterRecords := [],
    positionInRecord := 0, inNamelist := false, chars_ := 0 }

/-- A statement reading one record of 16-bit characters, a space and `A`. -/
def stateWideBlankA : IoStatementState :=
  { record := [twoBytes 32, twoBytes 65], laterRecords := [],
    positionInRecord := 0, inNamelist := false, chars_ := 0 }

/-- A statement in namelist mode whose current record is `" !A"` and whose
next and last record is `"B"`. -/
def stateBangNamelist : IoStatementState :=
  { record := [oneByte 32, oneByte 33, oneByte 65], laterRecords := [[oneByte 66]],
    positionInRecord := 0, inNamelist := true, chars_ := 0 }

/-- The same records as `stateBangNamelist`, outside namelist mode. -/
def stateBangPlain : IoStatementState :=
  { record := [oneByte 32, oneByte 33, oneByte 65], laterRecords := [[oneByte 66]],
    positionInRecord := 0, inNamelist := false, chars_ := 0 }

/-- A formatted edit descriptor of width 4, such as `I4`. -/
def editWidth4 : DataEdit := { IsListDirected := false, width := some 4 }

/-- A list-directed edit that carries a width. -/
def editListDirected : DataEdit := { IsListDirected := true, width := some 1 }

/-- The variant index of `ExternalListIoStatementState<Direction::Input>`. -/
def externalListInputIndex : Fin 25 := 10

/-- The variant index of `OpenStatementState`. -/
def openStatementIndex : Fin 25 := 0

/-- The variant index of `ExternalFormattedIoStatementState<Direction::Input>`. -/
def externalFormattedInputIndex : Fin 25 := 8

/-- A statement state not yet completed, with a counter as its own member. -/
def stateNotCompleted : StatementState Nat :=
  { base := { handler := { ioStat_ := 0 }, completedOperation_ := false }, derived := 0 }

/-- Completion work that counts how often it ran. -/
def countingWork (s : StatementState Nat) : StatementState Nat :=
  { s with derived := s.derived + 1 }

/-- A list-directed input state in which a `'/'` has been seen while an item
was read: the slash flag and the eat-comma flag are set. -/
def listStateAfterSlash : ListDirectedStatementStateInput Nat :=
  { chars_ := 0, remaining_ := 0, repeatPosition_ := none, eatComma_ := true,
    hitSlash_ := true, realPart_ := false, imaginaryPart_ := false,
    inNamelistArray_ := false }

/-- A list-directed input statement at its start, with no error pending. -/
def listStatementStart : StatementState ListInputState :=
  { base := { handler := { ioStat_ := 0 }, completedOperation_ := false },
    derived := ListDirectedStatementStateInput.initial }

/-- A statement reading the single record `"1,2/"`. -/
def stateOneTwoSlash : IoStatementState :=
  { record := [oneByte 49, oneByte 44, oneByte 50, oneByte 47], laterRecords := [],
    positionInRecord := 0, inNamelist := false, chars_ := 0 }

/-- A statement reading the single record `",,"`. -/
def stateTwoCommas : IoStatementState :=
  { record := [oneByte 44, oneByte 44], laterRecords := [],
    positionInRecord := 0, inNamelist := false, chars_ := 0 }

/-- A list-directed input state after an item was read: the comma that
follows the item is to be consumed. -/
def listStateAfterItem : ListInputState :=
  { chars_ := 0, remaining_ := 0, repeatPosition_ := none, eatComma_ := true,
    hitSlash_ := false, realPart_ := false, imaginaryPart_ := false,
    inNamelistArray_ := false }

/-! ## Cursor alignment -/

theorem byteLen_append (xs ys : List InputChar) :
    byteLen (xs ++ ys) = byteLen xs + byteLen ys := by
  induction xs with
  | nil => simp [byteLen]
  | cons x xs ih => simp [byteLen, ih, Nat.add_assoc]

/-- On a character boundary the cursor reads the first character ahead. -/
theorem charAt_boundary (pre ahead : List InputChar) :
    charAt (pre ++ ahead) (byteLen pre) = ahead.head? := by
  induction pre with
  | nil => cases ahead <;> simp [charAt, byteLen]
  | cons p ps ih =>
    have hp := p.bytes_pos
    have h1 : ¬ (p.bytes + byteLen ps = 0) := by omega
    have h2 : p.bytes ≤ p.bytes + byteLen ps := by omega
    simp [charAt, byteLen, h1, h2, ih]

theorem GetCurrentChar_boundary (s : IoStatementState) (pre ahead : List InputChar)
    (hrec : s.record = pre ++ ahead) (hpos : s.positionInRecord = byteLen pre) :
    GetCurrentChar s = ahead.head? := by
  unfold GetCurrentChar
  rw [hrec, hpos, charAt_boundary]

/-- The test of the source, `*ch != ' ' && *ch != '\t'`, is "not blank". -/
theorem nonblank_test (c : InputChar) :
    (c.ch != space && c.ch != tab) = !isBlank c := by
  unfold isBlank
  cases h1 : c.ch == space <;> cases h2 : c.ch == tab <;> simp [bne, h1, h2]

theorem HandleRelativePosition_bytes (s : IoStatementState) (n : Nat) :
    HandleRelativePosition s (n : Int) = { s with positionInRecord := s.positionInRecord + n } := by
  unfold HandleRelativePosition
  congr 1

/-! ## `SkipSpaces` without a width budget -/

theorem SkipSpaces_none_run (ahead : List InputChar) :
    ∀ (pre : List InputChar) (s : IoStatementState) (fuel : Nat),
      s.record = pre ++ ahead → s.positionInRecord = byteLen pre → ahead.length < fuel →
      SkipSpaces fuel none s =
        some (((ahead.dropWhile isBlank).head?).map InputChar.ch, none,
          { s with positionInRecord := s.positionInRecord + byteLen (ahead.takeWhile isBlank) }) := by
  induction ahead with
  | nil =>
    intro pre s fuel hrec hpos hfuel
    obtain ⟨f, rfl⟩ : ∃ f, fuel = f + 1 := ⟨fuel - 1, by simp at hfuel; omega⟩
    have hcur := GetCurrentChar_boundary s pre [] hrec hpos
    simp only [List.head?_nil] at hcur
    simp [SkipSpaces, skipSpacesCond, hcur, byteLen]
  | cons c cs ih =>
    intro pre s fuel hrec hpos hfuel
    obtain ⟨f, rfl⟩ : ∃ f, fuel = f + 1 := ⟨fuel - 1, by simp at hfuel; omega⟩
    have hcur := GetCurrentChar_boundary s pre (c :: cs) hrec hpos
    simp only [List.head?_cons] at hcur
    cases hb : isBlank c with
    | false =>
      simp [SkipSpaces, skipSpacesCond, hcur, nonblank_test, hb, byteLen]
    | true =>
      have hstep := ih (pre ++ [c]) (HandleRelativePosition s (c.bytes : Int)) f
        (by simp [HandleRelativePosition, hrec])
        (by simp [HandleRelativePosition_bytes, hpos, byteLen_append, byteLen])
        (by simp at hfuel; omega)
      simp only [SkipSpaces, skipSpacesCond, hcur, nonblank_test, hb, Bool.not_true,
        if_true, Bool.false_eq_true, if_false, hstep]
      simp [HandleRelativePosition_bytes, hb, byteLen, Nat.add_assoc]

/-- C1: with no width budget (`remaining` vacant) and the cursor on a
character boundary of the current record, `SkipSpaces` returns once given
more fuel than there are characters ahead; the characters it consumed
(`skipped`) are all spaces or tabs, `remaining` stays vacant, nothing but
the cursor changes, the cursor is left on the first character not consumed,
and whenever the record holds a non-blank character at or after the cursor,
that first un-consumed character is non-blank and is the one returned. -/
theorem SkipSpaces_unbounded_returns_first_nonblank
    (s : IoStatementState) (pre ahead : List InputChar) (fuel : Nat)
    (hrec : s.record = pre ++ ahead) (hpos : s.positionInRecord = byteLen pre)
    (hfuel : ahead.length < fuel) :
    ∃ (skipped rest : List InputChar) (r : Option Nat) (s1 : IoStatementState),
      ahead = skipped ++ rest ∧
      (∀ b ∈ skipped, isBlank b = true) ∧
      SkipSpaces fuel none s = some (r, none, s1) ∧
      s1 = { s with positionInRecord := s.positionInRecord + byteLen skipped } ∧
      GetCurrentChar s1 = rest.head? ∧
      r = rest.head?.map InputChar.ch ∧
      ((∃ c ∈ ahead, isBlank c = false) →
        ∃ c rest1, rest = c :: rest1 ∧ isBlank c = false ∧ r = some c.ch) := by
  refine ⟨ahead.takeWhile isBlank, ahead.dropWhile isBlank, _, _,
    (List.takeWhile_append_dropWhile isBlank ahead).symm, ?_,
    SkipSpaces_none_run ahead pre s fuel hrec hpos hfuel, rfl, ?_, rfl, ?_⟩
  · intro b hb
    exact List.mem_takeWhile_imp hb
  · apply GetCurrentChar_boundary _ (pre ++ ahead.takeWhile isBlank)
    · simp [hrec]
    · simp [hpos, byteLen_append]
  · rintro ⟨c, hc, hcb⟩
    cases hd : ahead.dropWhile isBlank with
    | nil =>
      rw [List.dropWhile_eq_nil_iff] at hd
      have := hd c hc
      simp [hcb] at this
    | cons d ds =>
      refine ⟨d, ds, rfl, ?_, by simp⟩
      have := List.head?_dropWhile_not isBlank ahead
      simp [hd] at this
      exact this

/-- C1 at the record `" \tA "` with the cursor at its start. -/
theorem SkipSpaces_unbounded_returns_first_nonblank_witness :
    ∃ (skipped rest : List InputChar) (r : Option Nat) (s1 : IoStatementState),
      [oneByte 32, oneByte 9, oneByte 65, oneByte 32] = skipped ++ rest ∧
      (∀ b ∈ skipped, isBlank b = true) ∧
      SkipSpaces 5 none stateBlankTabA = some (r, none, s1) ∧
      s1 = { stateBlankTabA with
              positionInRecord := stateBlankTabA.positionInRecord + byteLen skipped } ∧
      GetCurrentChar s1 = rest.head? ∧
      r = rest.head?.map InputChar.ch ∧
      ((∃ c ∈ [oneByte 32, oneByte 9, oneByte 65, oneByte 32], isBlank c = false) →
        ∃ c rest1, rest = c :: rest1 ∧ isBlank c = false ∧ r = some c.ch) :=
  SkipSpaces_unbounded_returns_first_nonblank stateBlankTabA []
    [oneByte 32, oneByte 9, oneByte 65, oneByte 32] 5 rfl rfl (by decide)

/-! ## `SkipSpaces` with a width budget -/

theorem GotChar_bytes_chars (s : IoStatementState) (n : Nat) :
    (GotChar s (n : Int)).chars_ = (s.chars_ + n) % 2 ^ 64 := by
  simp only [GotChar]
  have h : ((s.chars_ : Int) + (n : Int)) % 2 ^ 64 = (((s.chars_ + n) % 2 ^ 64 : Nat) : Int) := by
    push_cast
    rfl
  rw [h, Int.toNat_ofNat]

/-- The run of `SkipSpaces` under a budget of `n` bytes, from a cursor on a
character boundary: what was consumed, what is left of the budget, the
state afterwards, and which outcome gave the result. -/
theorem SkipSpaces_some_run (ahead : List InputChar) :
    ∀ (n : Nat) (pre : List InputChar) (s : IoStatementState) (fuel : Nat),
      s.record = pre ++ ahead → s.positionInRecord = byteLen pre → ahead.length < fuel →
      ∃ (skipped rest : List InputChar) (r : Option Nat) (s1 : IoStatementState),
        ahead = skipped ++ rest ∧
        (∀ b ∈ skipped, isBlank b = true) ∧
        byteLen skipped ≤ n ∧
        SkipSpaces fuel (some (n : Int)) s
          = some (r, some (((n - byteLen skipped : Nat)) : Int), s1) ∧
        s1 = { s with positionInRecord := s.positionInRecord + byteLen skipped,
                      chars_ := s1.chars_ } ∧
        s1.chars_ % 2 ^ 64 = (s.chars_ + byteLen skipped) % 2 ^ 64 ∧
        (skipped = [] → s1 = s) ∧
        (r = none ↔ (n = byteLen skipped ∨ rest = [] ∨
          ∃ b rest1, rest = b :: rest1 ∧ isBlank b = true ∧ n - byteLen skipped < b.bytes)) ∧
        (∀ ch, r = some ch ↔ (byteLen skipped < n ∧
          ∃ c rest1, rest = c :: rest1 ∧ isBlank c = false ∧ c.ch = ch)) := by
  induction ahead with
  | nil =>
    intro n pre s fuel hrec hpos hfuel
    obtain ⟨f, rfl⟩ : ∃ f, fuel = f + 1 := ⟨fuel - 1, by simp at hfuel; omega⟩
    have hcur := GetCurrentChar_boundary s pre [] hrec hpos
    simp only [List.head?_nil] at hcur
    refine ⟨[], [], none, s, rfl, by simp, by simp [byteLen], ?_, by simp [byteLen],
      by simp [byteLen], fun _ => rfl, by simp, by simp⟩
    by_cases hn : 0 < n <;> simp [SkipSpaces, skipSpacesCond, hcur, byteLen, hn]
  | cons c cs ih =>
    intro n pre s fuel hrec hpos hfuel
    obtain ⟨f, rfl⟩ : ∃ f, fuel = f + 1 := ⟨fuel - 1, by simp at hfuel; omega⟩
    have hcur := GetCurrentChar_boundary s pre (c :: cs) hrec hpos
    simp only [List.head?_cons] at hcur
    have hcpos := c.bytes_pos
    by_cases hn : n = 0
    · subst hn
      refine ⟨[], c :: cs, none, s, rfl, by simp, by simp [byteLen], ?_, by simp [byteLen],
        by simp [byteLen], fun _ => rfl, by simp [byteLen], by simp [byteLen]⟩
      simp [SkipSpaces, skipSpacesCond, byteLen]
    · have hn0 : 0 < n := Nat.pos_of_ne_zero hn
      cases hb : isBlank c with
      | false =>
        refine ⟨[], c :: cs, some c.ch, s, rfl, by simp, by simp [byteLen], ?_,
          by simp [byteLen], by simp [byteLen], fun _ => rfl, ?_, ?_⟩
        · simp [SkipSpaces, skipSpacesCond, hcur, nonblank_test, hb, byteLen, hn0]
        · simp [byteLen, hn, hb]
        · intro ch
          simp [byteLen, hn0, hb]
      | true =>
        by_cases hw : n < c.bytes
        · refine ⟨[], c :: cs, none, s, rfl, by simp, by simp [byteLen], ?_,
            by simp [byteLen], by simp [byteLen], fun _ => rfl, ?_, ?_⟩
          · simp [SkipSpaces, skipSpacesCond, hcur, nonblank_test, hb, byteLen, hn0, hw]
          · simp [byteLen, hb, hw]
          · intro ch
            simp [byteLen, hb]
        · have hle : c.bytes ≤ n := Nat.le_of_not_lt hw
          obtain ⟨sk, rest, r, s1, hsplit, hblank, hbud, hrun, hs1, hchars, -, hnone, hsome⟩ :=
            ih (n - c.bytes) (pre ++ [c])
              (HandleRelativePosition (GotChar s (c.bytes : Int)) (c.bytes : Int)) f
              (by simp [HandleRelativePosition, GotChar, hrec])
              (by simp [HandleRelativePosition_bytes, GotChar, hpos, byteLen_append, byteLen])
              (by simp at hfuel; omega)
          have hcast : ((n : Int) - (c.bytes : Int)) = (((n - c.bytes : Nat)) : Int) := by
            omega
          refine ⟨c :: sk, rest, r, s1, by simp [hsplit], ?_, by simp [byteLen]; omega, ?_, ?_,
            ?_, by simp, ?_, ?_⟩
          · intro b hbm
            rcases List.mem_cons.mp hbm with rfl | hbm
            · exact hb
            · exact hblank b hbm
          · simp only [SkipSpaces, skipSpacesCond, hcur, nonblank_test, hb, Bool.not_true,
              Bool.false_eq_true, if_false, Int.toNat_ofNat, hw, hcast, hrun]
            simp [hn0, byteLen, Nat.sub_sub]
          · rw [hs1]
            simp [HandleRelativePosition_bytes, GotChar, byteLen, Nat.add_assoc]
          · rw [hchars]
            simp only [HandleRelativePosition_bytes, GotChar_bytes_chars, byteLen]
            rw [Nat.mod_add_mod, Nat.add_assoc]
          · rw [hnone]
            simp only [byteLen, Nat.sub_sub]
            constructor
            · rintro (h | h | h)
              · left; omega
              · right; left; exact h
              · right; right; exact h
            · rintro (h | h | h)
              · left; omega
              · right; left; exact h
              · right; right; exact h
          · intro ch
            rw [hsome ch]
            simp only [byteLen]
            constructor
            · rintro ⟨h1, h2⟩
              exact ⟨by omega, h2⟩
            · rintro ⟨h1, h2⟩
              exact ⟨by omega, h2⟩

/-! ## `GetNextNonBlank` -/

/-- The loop of `GetNextNonBlank` passes over the leading blanks of what is
ahead in the current record, one iteration each, and then stands before
the first character that is not a blank (or at the end of the record). -/
theorem GetNextNonBlankLoop_skip (nl : Bool) (ahead : List InputChar) :
    ∀ (pre : List InputChar) (s : IoStatementState) (k : Nat),
      s.record = pre ++ ahead → s.positionInRecord = byteLen pre →
      GetNextNonBlankLoop ((ahead.takeWhile isBlank).length + k) nl (GetCurrentChar s) s =
        GetNextNonBlankLoop k nl ((ahead.dropWhile isBlank).head?)
          { s with positionInRecord := s.positionInRecord + byteLen (ahead.takeWhile isBlank) } := by
  induction ahead with
  | nil =>
    intro pre s k hrec hpos
    have hcur := GetCurrentChar_boundary s pre [] hrec hpos
    simp [hcur, byteLen]
  | cons c cs ih =>
    intro pre s k hrec hpos
    have hcur := GetCurrentChar_boundary s pre (c :: cs) hrec hpos
    simp only [List.head?_cons] at hcur
    cases hb : isBlank c with
    | false => simp [hcur, hb, byteLen]
    | true =>
      have hb1 : (c.ch == space || c.ch == tab) = true := hb
      have hstep := ih (pre ++ [c]) (HandleRelativePosition s (c.bytes : Int)) k
        (by simp [HandleRelativePosition, hrec])
        (by simp [HandleRelativePosition_bytes, hpos, byteLen_append, byteLen])
      have hfuel : ((c :: cs).takeWhile isBlank).length + k
          = ((cs.takeWhile isBlank).length + k) + 1 := by
        simp [hb]; omega
      rw [hfuel, hcur]
      simp only [GetNextNonBlankLoop, getNextNonBlankCond, getNextNonBlankSkips, hb1,
        Bool.true_or, if_true, Option.map_some', Option.getD_some, hstep]
      simp [HandleRelativePosition_bytes, hb, byteLen, Nat.add_assoc]

theorem length_takeWhile_isBlank_le (l : List InputChar) :
    (l.takeWhile isBlank).length ≤ l.length := by
  have h := congrArg List.length (List.takeWhile_append_dropWhile isBlank l)
  rw [List.length_append] at h
  omega

/-- A character that `firstSignificant` picks is neither a blank nor, in
namelist mode, an exclamation mark. -/
theorem firstSignificant_some (nl : Bool) (rs : List (List InputChar)) (c : InputChar)
    (h : firstSignificant nl rs = some c) :
    isBlank c = false ∧ (nl = true → c.ch ≠ bang) := by
  induction rs with
  | nil => simp [firstSignificant] at h
  | cons r rs ih =>
    unfold firstSignificant at h
    cases hd : r.dropWhile isBlank with
    | nil =>
      rw [hd] at h
      exact ih h
    | cons d ds =>
      rw [hd] at h
      have hnb : isBlank d = false := by
        have := List.head?_dropWhile_not isBlank r
        simp [hd] at this
        exact this
      by_cases hc : (nl && d.ch == bang) = true
      · simp only [hc, if_true] at h
        exact ih h
      · simp only [hc, Bool.false_eq_true, if_false, Option.some.injEq] at h
        subst h
        refine ⟨hnb, ?_⟩
        intro hnl hbang
        apply hc
        simp [hnl, hbang]

/-- The whole run of the loop of `GetNextNonBlank` from a cursor on a
character boundary, over the rest of the current record and the records
after it. -/
theorem GetNextNonBlankLoop_run (nl : Bool) (later : List (List InputChar)) :
    ∀ (ahead pre : List InputChar) (s : IoStatementState) (fuel : Nat),
      s.record = pre ++ ahead → s.positionInRecord = byteLen pre → s.laterRecords = later →
      scanBound (ahead :: later) ≤ fuel →
      ∃ (r : Option InputChar) (s1 : IoStatementState),
        GetNextNonBlankLoop fuel nl (GetCurrentChar s) s = some (r, s1) ∧
        r = firstSignificant nl (ahead :: later) ∧
        (∀ c, r = some c → GetCurrentChar s1 = some c) ∧
        (r = none → s1.laterRecords = []) ∧
        s1.inNamelist = s.inNamelist ∧ s1.chars_ = s.chars_ := by
  induction later with
  | nil =>
    intro ahead pre s fuel hrec hpos hlater hfuel
    simp only [scanBound] at hfuel
    have hlen := length_takeWhile_isBlank_le ahead
    obtain ⟨k, rfl⟩ : ∃ k, fuel = (ahead.takeWhile isBlank).length + (k + 1) :=
      ⟨fuel - (ahead.takeWhile isBlank).length - 1, by omega⟩
    rw [GetNextNonBlankLoop_skip nl ahead pre s (k + 1) hrec hpos]
    have hcur : GetCurrentChar
        { s with positionInRecord := s.positionInRecord + byteLen (ahead.takeWhile isBlank) }
        = (ahead.dropWhile isBlank).head? := by
      apply GetCurrentChar_boundary _ (pre ++ ahead.takeWhile isBlank)
      · simp [hrec]
      · simp [hpos, byteLen_append]
    cases hd : ahead.dropWhile isBlank with
    | nil =>
      refine ⟨none, { s with positionInRecord := s.positionInRecord + byteLen (ahead.takeWhile isBlank) },
        ?_, ?_, by simp, ?_, rfl, rfl⟩
      · simp [GetNextNonBlankLoop, getNextNonBlankCond, getNextNonBlankSkips, AdvanceRecord,
          hlater]
      · simp [firstSignificant, hd]
      · intro _
        exact hlater
    | cons d ds =>
      have hnb : isBlank d = false := by
        have := List.head?_dropWhile_not isBlank ahead
        simp [hd] at this
        exact this
      have hnb1 : (d.ch == space || d.ch == tab) = false := hnb
      rw [hd] at hcur
      by_cases hc : (nl && d.ch == bang) = true
      · refine ⟨none, { s with positionInRecord := s.positionInRecord + byteLen (ahead.takeWhile isBlank) },
        ?_, ?_, by simp, ?_, rfl, rfl⟩
        · simp [GetNextNonBlankLoop, getNextNonBlankCond, getNextNonBlankSkips, AdvanceRecord,
            hlater, hnb1, hc]
        · simp [firstSignificant, hd, hc]
        · intro _
          exact hlater
      · have hc1 : (nl && d.ch == bang) = false := by simpa using hc
        refine ⟨some d, { s with positionInRecord := s.positionInRecord + byteLen (ahead.takeWhile isBlank) },
          ?_, ?_, ?_, by simp, rfl, rfl⟩
        · simp [GetNextNonBlankLoop, getNextNonBlankCond, hnb1, hc1]
        · simp [firstSignificant, hd, hc1]
        · intro c hcd
          rw [hcur, ← hcd]
          rfl
  | cons nxt rs ih =>
    intro ahead pre s fuel hrec hpos hlater hfuel
    simp only [scanBound] at hfuel
    have hlen := length_takeWhile_isBlank_le ahead
    obtain ⟨k, rfl⟩ : ∃ k, fuel = (ahead.takeWhile isBlank).length + (k + 1) :=
      ⟨fuel - (ahead.takeWhile isBlank).length - 1, by omega⟩
    have hk : scanBound (nxt :: rs) ≤ k := by
      simp only [scanBound]
      omega
    rw [GetNextNonBlankLoop_skip nl ahead pre s (k + 1) hrec hpos]
    have hcur : GetCurrentChar
        { s with positionInRecord := s.positionInRecord + byteLen (ahead.takeWhile isBlank) }
        = (ahead.dropWhile isBlank).head? := by
      apply GetCurrentChar_boundary _ (pre ++ ahead.takeWhile isBlank)
      · simp [hrec]
      · simp [hpos, byteLen_append]
    -- the state after a successful `AdvanceRecord`
    obtain ⟨r, s1, hrun, hr, hleft, hend, hnl, hch⟩ :=
      ih nxt []
        { s with record := nxt, laterRecords := rs, positionInRecord := 0 } k
        (by simp) (by simp [byteLen]) rfl hk
    cases hd : ahead.dropWhile isBlank with
    | nil =>
      refine ⟨r, s1, ?_, ?_, hleft, hend, hnl, hch⟩
      · simp only [GetNextNonBlankLoop, getNextNonBlankCond, getNextNonBlankSkips,
          List.head?_nil, if_true, Bool.false_eq_true, if_false, AdvanceRecord, hlater]
        exact hrun
      · simp [firstSignificant, hd, hr]
    | cons d ds =>
      have hnb : isBlank d = false := by
        have := List.head?_dropWhile_not isBlank ahead
        simp [hd] at this
        exact this
      have hnb1 : (d.ch == space || d.ch == tab) = false := hnb
      rw [hd] at hcur
      by_cases hc : (nl && d.ch == bang) = true
      · refine ⟨r, s1, ?_, ?_, hleft, hend, hnl, hch⟩
        · simp only [GetNextNonBlankLoop, getNextNonBlankCond, getNextNonBlankSkips,
            List.head?_cons, hnb1, hc, Bool.false_or, if_true, Bool.false_eq_true, if_false,
            AdvanceRecord, hlater]
          exact hrun
        · simp [firstSignificant, hd, hc, hr]
      · have hc1 : (nl && d.ch == bang) = false := by simpa using hc
        refine ⟨some d, { s with positionInRecord := s.positionInRecord + byteLen (ahead.takeWhile isBlank) },
          ?_, ?_, ?_, by simp, rfl, rfl⟩
        · simp [GetNextNonBlankLoop, getNextNonBlankCond, hnb1, hc1]
        · simp [firstSignificant, hd, hc1]
        · intro c hcd
          rw [hcur, ← hcd]
          rfl

/-! ## Claims on `SkipSpaces` with a width budget -/

/-- C2, as stated, fails: on the record of two spaces with a budget of 3
bytes `SkipSpaces` returns none although the budget is not exhausted: one
byte of budget is left and no character is waiting at the cursor. The
record ran out, the budget did not. -/
theorem SkipSpaces_bounded_none_with_budget_left :
    SkipSpaces 3 (some 3) stateTwoBlanks
      = some (none, some 1, { stateTwoBlanks with positionInRecord := 2, chars_ := 2 }) ∧
    GetCurrentChar { stateTwoBlanks with positionInRecord := 2, chars_ := 2 } = none := by
  decide

/-- C2, amended: under a budget of `n ≥ 0` bytes and from a cursor on a
character boundary, `SkipSpaces` returns once given more fuel than there
are characters ahead; it consumes only blanks (`skipped`), advances the
cursor by their byte length, which is at most `n`, and leaves `n` minus
that length as the budget. It returns none exactly in three outcomes: the
budget is used up, the current record is exhausted, or the next blank is
wider than the budget left. It returns a character exactly when budget is
left and the next character is not a blank, and then returns that
character. -/
theorem SkipSpaces_bounded_outcomes
    (s : IoStatementState) (pre ahead : List InputChar) (fuel n : Nat)
    (hrec : s.record = pre ++ ahead) (hpos : s.positionInRecord = byteLen pre)
    (hfuel : ahead.length < fuel) :
    ∃ (skipped rest : List InputChar) (r : Option Nat) (s1 : IoStatementState),
      ahead = skipped ++ rest ∧
      (∀ b ∈ skipped, isBlank b = true) ∧
      SkipSpaces fuel (some (n : Int)) s
        = some (r, some (((n - byteLen skipped : Nat)) : Int), s1) ∧
      s1.positionInRecord = s.positionInRecord + byteLen skipped ∧
      byteLen skipped ≤ n ∧
      (r = none ↔ (n = byteLen skipped ∨ rest = [] ∨
        ∃ b rest1, rest = b :: rest1 ∧ isBlank b = true ∧ n - byteLen skipped < b.bytes)) ∧
      (∀ ch, r = some ch ↔ (byteLen skipped < n ∧
        ∃ c rest1, rest = c :: rest1 ∧ isBlank c = false ∧ c.ch = ch)) := by
  obtain ⟨skipped, rest, r, s1, hsplit, hblank, hbud, hrun, hs1, -, -, hnone, hsome⟩ :=
    SkipSpaces_some_run ahead n pre s fuel hrec hpos hfuel
  refine ⟨skipped, rest, r, s1, hsplit, hblank, hrun, ?_, hbud, hnone, hsome⟩
  rw [hs1]

/-- C2, amended, at the record `" \tA "` with a budget of one byte. -/
theorem SkipSpaces_bounded_outcomes_witness :
    ∃ (skipped rest : List InputChar) (r : Option Nat) (s1 : IoStatementState),
      [oneByte 32, oneByte 9, oneByte 65, oneByte 32] = skipped ++ rest ∧
      (∀ b ∈ skipped, isBlank b = true) ∧
      SkipSpaces 5 (some ((1 : Nat) : Int)) stateBlankTabA
        = some (r, some (((1 - byteLen skipped : Nat)) : Int), s1) ∧
      s1.positionInRecord = stateBlankTabA.positionInRecord + byteLen skipped ∧
      byteLen skipped ≤ 1 ∧
      (r = none ↔ (1 = byteLen skipped ∨ rest = [] ∨
        ∃ b rest1, rest = b :: rest1 ∧ isBlank b = true ∧ 1 - byteLen skipped < b.bytes)) ∧
      (∀ ch, r = some ch ↔ (byteLen skipped < 1 ∧
        ∃ c rest1, rest = c :: rest1 ∧ isBlank c = false ∧ c.ch = ch)) :=
  SkipSpaces_bounded_outcomes stateBlankTabA []
    [oneByte 32, oneByte 9, oneByte 65, oneByte 32] 5 1 rfl rfl (by decide)

/-! ## Claims on `CheckFormattedStmtType` -/

/-- Which alternatives expose `FormattedIoStatementState<D>`: those whose
mode is formatted or list-directed and whose direction is `D`. -/
theorem get_if_Formatted_iff (i : Fin 25) (D : Direction) :
    get_if i (ClassId.FormattedIoStatementState D) = true ↔
      ((formattingMode (alternativeAt i) = some FormattingMode.formatted ∨
          formattingMode (alternativeAt i) = some FormattingMode.listDirected) ∧
        transferDirection (alternativeAt i) = some D) := by
  revert i
  cases D <;> decide

/-- C3, as stated, fails: a handle bound to
`ExternalListIoStatementState<Direction::Input>`, whose formatting mode is
list-directed and not formatted, makes `CheckFormattedStmtType<Input>`
return true. -/
theorem CheckFormattedStmtType_true_on_list_directed :
    alternativeAt externalListInputIndex = ClassId.ExternalListIoStatementState Direction.Input ∧
    CheckFormattedStmtType Direction.Input externalListInputIndex { ioStat_ := 0 }
      = Outcome.returned (true, { ioStat_ := 0 }) ∧
    ¬ (formattingMode (alternativeAt externalListInputIndex) = some FormattingMode.formatted ∧
        transferDirection (alternativeAt externalListInputIndex) = some Direction.Input) := by
  decide

/-- C3, amended: for each of the 25 alternatives of the handle's variant,
every direction `D` and every error handler, `CheckFormattedStmtType<D>`
returns true if and only if the formatting mode of the bound state is
formatted or list-directed (both derive from
`FormattedIoStatementState<D>`) and its direction is `D`. -/
theorem CheckFormattedStmtType_true_iff (i : Fin 25) (D : Direction) (h : IoErrorHandler) :
    CheckFormattedStmtType D i h = Outcome.returned (true, h) ↔
      ((formattingMode (alternativeAt i) = some FormattingMode.formatted ∨
          formattingMode (alternativeAt i) = some FormattingMode.listDirected) ∧
        transferDirection (alternativeAt i) = some D) := by
  rw [← get_if_Formatted_iff]
  unfold CheckFormattedStmtType
  cases hg : get_if i (ClassId.FormattedIoStatementState D) with
  | true => simp
  | false =>
    cases he : h.InError <;> simp [he]

/-- C4: when the bound state does not expose
`FormattedIoStatementState<D>`, `CheckFormattedStmtType<D>` crashes if and
only if no error is pending on the handler, and with an error pending it
returns false and hands the handler back as it was. -/
theorem CheckFormattedStmtType_mismatch (i : Fin 25) (D : Direction) (h : IoErrorHandler)
    (hno : get_if i (ClassId.FormattedIoStatementState D) = false) :
    ((∃ d, CheckFormattedStmtType D i h = Outcome.crashed d) ↔ h.InError = false) ∧
    (h.InError = false → CheckFormattedStmtType D i h = Outcome.crashed D) ∧
    (h.InError = true → CheckFormattedStmtType D i h = Outcome.returned (false, h)) := by
  unfold CheckFormattedStmtType
  cases he : h.InError <;> simp [hno, he]

/-- C4 at a handle bound to `OpenStatementState`, with the error status 5
pending. -/
theorem CheckFormattedStmtType_mismatch_witness :
    ((∃ d, CheckFormattedStmtType Direction.Input openStatementIndex { ioStat_ := 5 }
        = Outcome.crashed d) ↔ IoErrorHandler.InError { ioStat_ := 5 } = false) ∧
    (IoErrorHandler.InError { ioStat_ := 5 } = false →
      CheckFormattedStmtType Direction.Input openStatementIndex { ioStat_ := 5 }
        = Outcome.crashed Direction.Input) ∧
    (IoErrorHandler.InError { ioStat_ := 5 } = true →
      CheckFormattedStmtType Direction.Input openStatementIndex { ioStat_ := 5 }
        = Outcome.returned (false, { ioStat_ := 5 })) :=
  CheckFormattedStmtType_mismatch openStatementIndex Direction.Input { ioStat_ := 5 }
    (by decide)

/-! ## Claims on `GetNextNonBlank` -/

theorem bang_not_blank (c : InputChar) (hbang : c.ch = bang) : isBlank c = false := by
  simp [isBlank, hbang, bang, space, tab]

theorem takeWhile_blanks_then (blanks rest : List InputChar) (c : InputChar)
    (hblank : ∀ b ∈ blanks, isBlank b = true) (hc : isBlank c = false) :
    (blanks ++ c :: rest).takeWhile isBlank = blanks ∧
    (blanks ++ c :: rest).dropWhile isBlank = c :: rest := by
  induction blanks with
  | nil => simp [hc]
  | cons b bs ih =>
    have hb : isBlank b = true := hblank b (List.mem_cons_self b bs)
    have := ih (fun x hx => hblank x (List.mem_cons_of_mem b hx))
    simp [hb, this]

/-- C5: when the first non-blank character at or after the cursor in the
current record is `'!'`, then outside namelist mode `GetNextNonBlank`
returns that `'!'` and leaves the cursor on it, having moved only over the
blanks before it; in namelist mode it returns no `'!'`: at true end of
input it returns none, and otherwise its result and final state are those
of `GetNextNonBlank` started at the beginning of the next record. -/
theorem GetNextNonBlank_bang
    (s : IoStatementState) (pre blanks rest : List InputChar) (c : InputChar) (fuel : Nat)
    (hrec : s.record = pre ++ (blanks ++ c :: rest))
    (hpos : s.positionInRecord = byteLen pre)
    (hblank : ∀ b ∈ blanks, isBlank b = true) (hbang : c.ch = bang)
    (hfuel : scanBound ((blanks ++ c :: rest) :: s.laterRecords) ≤ fuel) :
    (s.inNamelist = false →
      GetNextNonBlank fuel s
        = some (some c, { s with positionInRecord := s.positionInRecord + byteLen blanks }) ∧
      GetCurrentChar { s with positionInRecord := s.positionInRecord + byteLen blanks }
        = some c) ∧
    (s.inNamelist = true →
      ∃ (r : Option InputChar) (s1 : IoStatementState),
        GetNextNonBlank fuel s = some (r, s1) ∧
        (∀ d, r = some d → d.ch ≠ bang) ∧
        (s.laterRecords = [] → r = none) ∧
        (∀ nxt rs, s.laterRecords = nxt :: rs →
          GetNextNonBlank (fuel - (blanks.length + 1))
            { s with record := nxt, laterRecords := rs, positionInRecord := 0 }
            = some (r, s1))) := by
  have hcb := bang_not_blank c hbang
  have hcb1 : (c.ch == space || c.ch == tab) = false := hcb
  obtain ⟨htw, hdw⟩ := takeWhile_blanks_then blanks rest c hblank hcb
  have hlen : (blanks ++ c :: rest).length = blanks.length + (rest.length + 1) := by simp
  simp only [scanBound, hlen] at hfuel
  obtain ⟨k, rfl⟩ : ∃ k, fuel = blanks.length + (k + 1) :=
    ⟨fuel - blanks.length - 1, by omega⟩
  have hskip := GetNextNonBlankLoop_skip s.inNamelist (blanks ++ c :: rest) pre s (k + 1) hrec hpos
  rw [htw, hdw] at hskip
  have hcur : GetCurrentChar { s with positionInRecord := s.positionInRecord + byteLen blanks }
      = some c := by
    have := GetCurrentChar_boundary
      { s with positionInRecord := s.positionInRecord + byteLen blanks }
      (pre ++ blanks) (c :: rest) (by simp [hrec]) (by simp [hpos, byteLen_append])
    simpa using this
  have hbb : (c.ch == bang) = true := by simp [hbang]
  constructor
  · intro hnl
    refine ⟨?_, hcur⟩
    unfold GetNextNonBlank
    rw [hskip, hnl]
    simp [GetNextNonBlankLoop, getNextNonBlankCond, hcb1]
  · intro hnl
    have hfk : blanks.length + (k + 1) - (blanks.length + 1) = k := by omega
    cases hl : s.laterRecords with
    | nil =>
      refine ⟨none, { s with positionInRecord := s.positionInRecord + byteLen blanks },
        ?_, by simp, fun _ => rfl, by simp⟩
      unfold GetNextNonBlank
      rw [hskip, hnl]
      simp [GetNextNonBlankLoop, getNextNonBlankCond, getNextNonBlankSkips, hcb1, hbb,
        AdvanceRecord, hl]
    | cons nxt rs =>
      obtain ⟨r, s1, hrun, hr, -, -, -, -⟩ :=
        GetNextNonBlankLoop_run s.inNamelist rs nxt []
          { s with record := nxt, laterRecords := rs, positionInRecord := 0 } k
          (by simp) (by simp [byteLen]) rfl
          (by rw [hl] at hfuel; simp only [scanBound] at hfuel ⊢; omega)
      refine ⟨r, s1, ?_, ?_, by simp, ?_⟩
      · unfold GetNextNonBlank
        rw [hskip, hnl]
        rw [hnl] at hrun
        simp only [GetNextNonBlankLoop, getNextNonBlankCond, getNextNonBlankSkips, hcb1, hbb,
          List.head?_cons, Bool.false_or, Bool.true_and, if_true, Bool.false_eq_true, if_false,
          AdvanceRecord, hl]
        exact hrun
      · intro d hd
        rw [hd, hnl] at hr
        exact (firstSignificant_some true (nxt :: rs) d hr.symm).2 rfl
      · intro nxt1 rs1 heq
        obtain ⟨rfl, rfl⟩ := List.cons.inj heq
        rw [hfk]
        unfold GetNextNonBlank
        exact hrun

/-- C5 at the records `" !A"`, `"B"` in namelist mode: the comment is passed
over and the scan goes on in the next record. -/
theorem GetNextNonBlank_bang_witness :
    (stateBangNamelist.inNamelist = false →
      GetNextNonBlank 7 stateBangNamelist
        = some (some (oneByte 33), { stateBangNamelist with
            positionInRecord := stateBangNamelist.positionInRecord
              + byteLen [oneByte 32] }) ∧
      GetCurrentChar { stateBangNamelist with
          positionInRecord := stateBangNamelist.positionInRecord + byteLen [oneByte 32] }
        = some (oneByte 33)) ∧
    (stateBangNamelist.inNamelist = true →
      ∃ (r : Option InputChar) (s1 : IoStatementState),
        GetNextNonBlank 7 stateBangNamelist = some (r, s1) ∧
        (∀ d, r = some d → d.ch ≠ bang) ∧
        (stateBangNamelist.laterRecords = [] → r = none) ∧
        (∀ nxt rs, stateBangNamelist.laterRecords = nxt :: rs →
          GetNextNonBlank (7 - ([oneByte 32].length + 1))
            { stateBangNamelist with
              record := nxt, laterRecords := rs, positionInRecord := 0 }
            = some (r, s1))) :=
  GetNextNonBlank_bang stateBangNamelist [] [oneByte 32] [oneByte 65] (oneByte 33) 7
    rfl rfl (by decide) rfl (by decide)

/-- C6: from a cursor on a character boundary and with fuel for every
character and record ahead, `GetNextNonBlank` returns; its result is the
first significant character of the rest of the current record and the
records after it (`firstSignificant`: not a space, not a tab, and in
namelist mode not in a record part that a `'!'` met by the scan turns
into a comment); a returned character is left under the cursor and is
neither a space nor a tab; the result is none exactly when no such
character exists, and then `AdvanceRecord` has nothing left to advance to. -/
theorem GetNextNonBlank_crosses_records
    (s : IoStatementState) (pre ahead : List InputChar) (fuel : Nat)
    (hrec : s.record = pre ++ ahead) (hpos : s.positionInRecord = byteLen pre)
    (hfuel : scanBound (ahead :: s.laterRecords) ≤ fuel) :
    ∃ (r : Option InputChar) (s1 : IoStatementState),
      GetNextNonBlank fuel s = some (r, s1) ∧
      r = firstSignificant s.inNamelist (ahead :: s.laterRecords) ∧
      (∀ c, r = some c → GetCurrentChar s1 = some c ∧ c.ch ≠ space ∧ c.ch ≠ tab) ∧
      (r = none ↔ firstSignificant s.inNamelist (ahead :: s.laterRecords) = none) ∧
      (r = none → (AdvanceRecord s1).1 = false) := by
  obtain ⟨r, s1, hrun, hr, hleft, hend, -, -⟩ :=
    GetNextNonBlankLoop_run s.inNamelist s.laterRecords ahead pre s fuel hrec hpos rfl hfuel
  refine ⟨r, s1, hrun, hr, ?_, by rw [hr], ?_⟩
  · intro c hc
    refine ⟨hleft c hc, ?_⟩
    rw [hc] at hr
    have hnb := (firstSignificant_some _ _ c hr.symm).1
    simp only [isBlank, Bool.or_eq_false_iff, beq_eq_false_iff_ne] at hnb
    exact hnb
  · intro hnone
    simp [AdvanceRecord, hend hnone]

/-- C6 at the records `" !A"`, `"B"` outside namelist mode. -/
theorem GetNextNonBlank_crosses_records_witness :
    ∃ (r : Option InputChar) (s1 : IoStatementState),
      GetNextNonBlank 7 stateBangPlain = some (r, s1) ∧
      r = firstSignificant stateBangPlain.inNamelist
        ([oneByte 32, oneByte 33, oneByte 65] :: stateBangPlain.laterRecords) ∧
      (∀ c, r = some c → GetCurrentChar s1 = some c ∧ c.ch ≠ space ∧ c.ch ≠ tab) ∧
      (r = none ↔ firstSignificant stateBangPlain.inNamelist
        ([oneByte 32, oneByte 33, oneByte 65] :: stateBangPlain.laterRecords) = none) ∧
      (r = none → (AdvanceRecord s1).1 = false) :=
  GetNextNonBlank_crosses_records stateBangPlain []
    [oneByte 32, oneByte 33, oneByte 65] 7 rfl rfl (by decide)

/-! ## Claims on `CueUpInput` -/

/-- C7: the code breaks the claim. With a field width of 4 on a record of
16-bit characters that starts with one space, `CueUpInput` consumes that
one character and returns 2, the width less the two bytes of the space.
The claim, and the header's comment on `CueUpInput` ("return the number
of remaining characters"), give 3, the width less one character: the
budget starts as a count of characters and `SkipSpaces` decrements it by
`byteCount`. -/
theorem CueUpInput_counts_bytes_not_characters :
    CueUpInput 3 editWidth4 stateWideBlankA
      = some (some 2, { stateWideBlankA with positionInRecord := 2, chars_ := 2 }) ∧
    stateWideBlankA.record = [twoBytes 32] ++ [twoBytes 65] ∧
    byteLen [twoBytes 32] = 2 ∧
    (2 : Int) ≠ 4 - (([twoBytes 32] : List InputChar).length : Int) := by
  decide

/-- What `CueUpInput` computes for an edit descriptor that is not
list-directed, from a cursor on a character boundary: it returns once
given more fuel than there are characters ahead, having consumed only
leading blanks (`skipped`); the result is none when the width is absent or
not positive, and otherwise the width less the byte length of the blanks
consumed, a count of bytes and not of characters. -/
theorem CueUpInput_fixed_width
    (edit : DataEdit) (s : IoStatementState) (pre ahead : List InputChar) (fuel : Nat)
    (hfmt : edit.IsListDirected = false)
    (hrec : s.record = pre ++ ahead) (hpos : s.positionInRecord = byteLen pre)
    (hfuel : ahead.length < fuel) :
    ∃ (skipped rest : List InputChar) (remaining : Option Int) (s1 : IoStatementState),
      ahead = skipped ++ rest ∧
      (∀ b ∈ skipped, isBlank b = true) ∧
      CueUpInput fuel edit s = some (remaining, s1) ∧
      s1.positionInRecord = s.positionInRecord + byteLen skipped ∧
      ((∀ w, edit.width = some w → w ≤ 0) → remaining = none) ∧
      (∀ w, edit.width = some w → 0 < w →
        remaining = some (w - (byteLen skipped : Int)) ∧ (byteLen skipped : Int) ≤ w) := by
  have hunbounded : ∀ remaining0 : Option Int, remaining0 = none →
      (if 0 < edit.width.getD 0 then edit.width else none) = remaining0 →
      ∃ (skipped rest : List InputChar) (remaining : Option Int) (s1 : IoStatementState),
        ahead = skipped ++ rest ∧
        (∀ b ∈ skipped, isBlank b = true) ∧
        CueUpInput fuel edit s = some (remaining, s1) ∧
        s1.positionInRecord = s.positionInRecord + byteLen skipped ∧ remaining = none := by
    intro remaining0 h0 hrem
    subst h0
    refine ⟨ahead.takeWhile isBlank, ahead.dropWhile isBlank, none,
      { s with positionInRecord := s.positionInRecord + byteLen (ahead.takeWhile isBlank) },
      (List.takeWhile_append_dropWhile isBlank ahead).symm,
      fun b hb => List.mem_takeWhile_imp hb, ?_, rfl, rfl⟩
    simp only [CueUpInput, hfmt, Bool.false_eq_true, if_false, hrem,
      SkipSpaces_none_run ahead pre s fuel hrec hpos hfuel]
  cases hw : edit.width with
  | none =>
    obtain ⟨skipped, rest, remaining, s1, h1, h2, h3, h4, h5⟩ :=
      hunbounded none rfl (by simp [hw])
    exact ⟨skipped, rest, remaining, s1, h1, h2, h3, h4, fun _ => h5, by simp⟩
  | some w =>
    by_cases hpos_w : 0 < w
    · obtain ⟨skipped, rest, r, s1, hsplit, hblank, hbud, hrun, hs1, -, -, -, -⟩ :=
        SkipSpaces_some_run ahead w.toNat pre s fuel hrec hpos hfuel
      have hcast : ((w.toNat : Nat) : Int) = w := Int.toNat_of_nonneg (le_of_lt hpos_w)
      rw [hcast] at hrun
      refine ⟨skipped, rest, some (((w.toNat - byteLen skipped : Nat)) : Int), s1,
        hsplit, hblank, ?_, by rw [hs1], ?_, ?_⟩
      · simp only [CueUpInput, hfmt, Bool.false_eq_true, if_false, hw, Option.getD_some,
          hpos_w, if_true, hrun]
      · intro hall
        have := hall w rfl
        omega
      · intro w1 hw1 _
        obtain rfl : w = w1 := Option.some.inj hw1
        constructor
        · congr 1
          omega
        · omega
    · obtain ⟨skipped, rest, remaining, s1, h1, h2, h3, h4, h5⟩ :=
        hunbounded none rfl (by simp [hw, hpos_w])
      refine ⟨skipped, rest, remaining, s1, h1, h2, h3, h4, fun _ => h5, ?_⟩
      intro w1 hw1 hw1pos
      obtain rfl : w = w1 := Option.some.inj hw1
      exact absurd hw1pos hpos_w

/-- The computation of `CueUpInput` at the record of 16-bit characters
with width 4. -/
theorem CueUpInput_fixed_width_witness :
    ∃ (skipped rest : List InputChar) (remaining : Option Int) (s1 : IoStatementState),
      [twoBytes 32, twoBytes 65] = skipped ++ rest ∧
      (∀ b ∈ skipped, isBlank b = true) ∧
      CueUpInput 3 editWidth4 stateWideBlankA = some (remaining, s1) ∧
      s1.positionInRecord = stateWideBlankA.positionInRecord + byteLen skipped ∧
      ((∀ w, editWidth4.width = some w → w ≤ 0) → remaining = none) ∧
      (∀ w, editWidth4.width = some w → 0 < w →
        remaining = some (w - (byteLen skipped : Int)) ∧ (byteLen skipped : Int) ≤ w) :=
  CueUpInput_fixed_width editWidth4 stateWideBlankA [] [twoBytes 32, twoBytes 65] 3
    rfl rfl rfl (by decide)

/-- C8: for a list-directed edit descriptor, whatever its width, from a
cursor on a character boundary and with fuel for every character and
record ahead, `CueUpInput` returns none as the width budget and leaves the
state exactly as `GetNextNonBlank` leaves it: the cursor on the next
non-blank character when there is one, and otherwise at end of input,
where no record is left to advance to. -/
theorem CueUpInput_list_directed
    (edit : DataEdit) (s : IoStatementState) (pre ahead : List InputChar) (fuel : Nat)
    (hlist : edit.IsListDirected = true)
    (hrec : s.record = pre ++ ahead) (hpos : s.positionInRecord = byteLen pre)
    (hfuel : scanBound (ahead :: s.laterRecords) ≤ fuel) :
    ∃ (r : Option InputChar) (s1 : IoStatementState),
      GetNextNonBlank fuel s = some (r, s1) ∧
      CueUpInput fuel edit s = some (none, s1) ∧
      (∀ c, r = some c → GetCurrentChar s1 = some c ∧ isBlank c = false) ∧
      (r = none → (AdvanceRecord s1).1 = false) := by
  obtain ⟨r, s1, hrun, hr, hleft, hend, -, -⟩ :=
    GetNextNonBlankLoop_run s.inNamelist s.laterRecords ahead pre s fuel hrec hpos rfl hfuel
  have hrun1 : GetNextNonBlank fuel s = some (r, s1) := hrun
  refine ⟨r, s1, hrun1, ?_, ?_, ?_⟩
  · simp only [CueUpInput, hlist, if_true, hrun1]
  · intro c hc
    refine ⟨hleft c hc, ?_⟩
    rw [hc] at hr
    exact (firstSignificant_some _ _ c hr.symm).1
  · intro hnone
    simp [AdvanceRecord, hend hnone]

/-- C8 at the records `" !A"`, `"B"` in namelist mode, with a list-directed
edit that carries the width 1. -/
theorem CueUpInput_list_directed_witness :
    ∃ (r : Option InputChar) (s1 : IoStatementState),
      GetNextNonBlank 7 stateBangNamelist = some (r, s1) ∧
      CueUpInput 7 editListDirected stateBangNamelist = some (none, s1) ∧
      (∀ c, r = some c → GetCurrentChar s1 = some c ∧ isBlank c = false) ∧
      (r = none → (AdvanceRecord s1).1 = false) :=
  CueUpInput_list_directed editListDirected stateBangNamelist []
    [oneByte 32, oneByte 33, oneByte 65] 7 rfl rfl rfl (by decide)

/-! ## Claims on completion and on the namelist reset -/

theorem CompleteOperation_sets_flag {σ : Type} (u_ : Fin 25)
    (work : StatementState σ → StatementState σ) (s : StatementState σ) :
    (CompleteOperation u_ work s).base.completedOperation_ = true := by
  unfold CompleteOperation CompleteOperationOverride IoStatementBase.CompleteOperation
  split
  · rfl
  · split
    · assumption
    · rfl

theorem CompleteOperation_of_completed {σ : Type} (u_ : Fin 25)
    (work : StatementState σ → StatementState σ) (s : StatementState σ)
    (hs : s.base.completedOperation_ = true) :
    CompleteOperation u_ work s = s := by
  obtain ⟨⟨handler, flag⟩, derived⟩ := s
  simp only at hs
  subst hs
  unfold CompleteOperation CompleteOperationOverride IoStatementBase.CompleteOperation
  split <;> simp

/-- C9: `CompleteOperation` is idempotent. For each alternative the handle
can be bound to, whatever the completion work of an overriding class is,
every state and every `N ≥ 1`, calling `CompleteOperation` `N` times
leaves the state that one call leaves; in it the completion flag is set,
and a call on a state whose flag is set changes nothing. -/
theorem CompleteOperation_idempotent {σ : Type} (u_ : Fin 25)
    (work : StatementState σ → StatementState σ) (s : StatementState σ)
    (N : Nat) (hN : 1 ≤ N) :
    Nat.iterate (CompleteOperation u_ work) N s = CompleteOperation u_ work s ∧
    (CompleteOperation u_ work s).base.completedOperation_ = true ∧
    CompleteOperation u_ work (CompleteOperation u_ work s) = CompleteOperation u_ work s := by
  have hflag := CompleteOperation_sets_flag u_ work s
  have hnoop := CompleteOperation_of_completed u_ work (CompleteOperation u_ work s) hflag
  refine ⟨?_, hflag, hnoop⟩
  obtain ⟨m, rfl⟩ : ∃ m, N = m + 1 := ⟨N - 1, by omega⟩
  clear hN
  induction m with
  | zero => rfl
  | succ m ih =>
    rw [Function.iterate_succ_apply', ih, hnoop]

/-- C9 at a handle bound to
`ExternalFormattedIoStatementState<Direction::Input>`, which overrides
`CompleteOperation`, with three calls. -/
theorem CompleteOperation_idempotent_witness :
    Nat.iterate (CompleteOperation externalFormattedInputIndex countingWork) 3 stateNotCompleted
      = CompleteOperation externalFormattedInputIndex countingWork stateNotCompleted ∧
    (CompleteOperation externalFormattedInputIndex countingWork
      stateNotCompleted).base.completedOperation_ = true ∧
    CompleteOperation externalFormattedInputIndex countingWork
        (CompleteOperation externalFormattedInputIndex countingWork stateNotCompleted)
      = CompleteOperation externalFormattedInputIndex countingWork stateNotCompleted :=
  CompleteOperation_idempotent externalFormattedInputIndex countingWork stateNotCompleted 3
    (by decide)

/-- C10: on every list-directed input statement and for every boolean `b`,
`ResetForNextNamelistItem(b)` sets the repeat count to 0, clears the
eat-comma flag and the real-part and imaginary-part flags, and sets the
namelist-array context to `b`; the saved repeat position, the slash flag,
the character count of the formatted mode and the `IoStatementBase` part
with its completion flag stay as they were. -/
theorem ResetForNextNamelistItem_frame {SavedPosition : Type}
    (st : StatementState (ListDirectedStatementStateInput SavedPosition)) (b : Bool) :
    (st.ResetForNextNamelistItem b).derived.remaining_ = 0 ∧
    (st.ResetForNextNamelistItem b).derived.eatComma_ = false ∧
    (st.ResetForNextNamelistItem b).derived.realPart_ = false ∧
    (st.ResetForNextNamelistItem b).derived.imaginaryPart_ = false ∧
    (st.ResetForNextNamelistItem b).derived.inNamelistArray_ = b ∧
    (st.ResetForNextNamelistItem b).derived.repeatPosition_ = st.derived.repeatPosition_ ∧
    (st.ResetForNextNamelistItem b).derived.hitSlash_ = st.derived.hitSlash_ ∧
    (st.ResetForNextNamelistItem b).derived.chars_ = st.derived.chars_ ∧
    (st.ResetForNextNamelistItem b).base = st.base ∧
    (st.ResetForNextNamelistItem b).base.completedOperation_ = st.base.completedOperation_ := by
  simp [StatementState.ResetForNextNamelistItem,
    ListDirectedStatementStateInput.ResetForNextNamelistItem]

/-- C11, as stated, fails: on a state in which the slash flag is set,
`ResetForNextNamelistItem` leaves the flag set; the state after the reset
is not the state a list-directed statement begins with. -/
theorem ResetForNextNamelistItem_keeps_slash :
    (listStateAfterSlash.ResetForNextNamelistItem false).hitSlash_ = true ∧
    listStateAfterSlash.ResetForNextNamelistItem false
      ≠ ListDirectedStatementStateInput.initial := by
  decide

/-- C11, amended: for every list-directed input state and every boolean
`b`, `ResetForNextNamelistItem(b)` puts the repeat count, the comma flag
and the two complex-part flags back to the values a statement begins with
and sets the namelist-array context to `b`; the slash flag is not reset
and keeps its value, as do the saved repeat position and the character
count. The state after the reset is the initial state exactly when no
slash had been seen, no position was saved, no character was counted and
`b` is false. -/
theorem ResetForNextNamelistItem_resets_item_state {SavedPosition : Type}
    (l : ListDirectedStatementStateInput SavedPosition) (b : Bool) :
    l.ResetForNextNamelistItem b =
      { (ListDirectedStatementStateInput.initial :
          ListDirectedStatementStateInput SavedPosition) with
        chars_ := l.chars_
        repeatPosition_ := l.repeatPosition_
        hitSlash_ := l.hitSlash_
        inNamelistArray_ := b } ∧
    (l.ResetForNextNamelistItem b).hitSlash_ = l.hitSlash_ ∧
    (l.ResetForNextNamelistItem b = ListDirectedStatementStateInput.initial ↔
      (l.hitSlash_ = false ∧ l.repeatPosition_ = none ∧ l.chars_ = 0 ∧ b = false)) := by
  refine ⟨rfl, rfl, ?_⟩
  obtain ⟨⟨chars⟩, remaining, pos, eat, slash, re, im, arr⟩ := l
  simp only [ListDirectedStatementStateInput.ResetForNextNamelistItem,
    ListDirectedStatementStateInput.initial,
    ListDirectedStatementStateInput.mk.injEq, FormattedIoStatementStateInput.mk.injEq]
  tauto

/-! ## `GetNextNonBlank` against `SkipSpaces` -/

/-- When the first character that is not a blank at or after the cursor is
in the current record and does not start a namelist comment, the loop of
`GetNextNonBlank` stops on it after one iteration for each blank before
it. -/
theorem GetNextNonBlankLoop_stops (nl : Bool) (s : IoStatementState)
    (pre blanks rest : List InputChar) (c : InputChar) (k : Nat)
    (hrec : s.record = pre ++ (blanks ++ c :: rest))
    (hpos : s.positionInRecord = byteLen pre)
    (hblank : ∀ b ∈ blanks, isBlank b = true) (hc : isBlank c = false)
    (hcomment : (nl && c.ch == bang) = false) :
    GetNextNonBlankLoop (blanks.length + (k + 1)) nl (GetCurrentChar s) s
      = some (some c, { s with positionInRecord := s.positionInRecord + byteLen blanks }) := by
  have hc1 : (c.ch == space || c.ch == tab) = false := hc
  obtain ⟨htw, hdw⟩ := takeWhile_blanks_then blanks rest c hblank hc
  have hskip := GetNextNonBlankLoop_skip nl (blanks ++ c :: rest) pre s (k + 1) hrec hpos
  rw [htw, hdw] at hskip
  rw [hskip]
  simp [GetNextNonBlankLoop, getNextNonBlankCond, hc1, hcomment]

/-- C13: when the current record holds a character that is not a blank at
or after the cursor, and namelist mode is off or that character is not
`'!'`, then `GetNextNonBlank` and `SkipSpaces` with no width budget both
return that character and leave the same state, with the cursor on the
character. -/
theorem GetNextNonBlank_agrees_with_SkipSpaces
    (s : IoStatementState) (pre blanks rest : List InputChar) (c : InputChar) (fuel : Nat)
    (hrec : s.record = pre ++ (blanks ++ c :: rest))
    (hpos : s.positionInRecord = byteLen pre)
    (hblank : ∀ b ∈ blanks, isBlank b = true) (hc : isBlank c = false)
    (hcomment : s.inNamelist = false ∨ c.ch ≠ bang)
    (hfuel : (blanks ++ c :: rest).length < fuel) :
    ∃ s1 : IoStatementState,
      GetNextNonBlank fuel s = some (some c, s1) ∧
      SkipSpaces fuel none s = some (some c.ch, none, s1) ∧
      s1 = { s with positionInRecord := s.positionInRecord + byteLen blanks } ∧
      GetCurrentChar s1 = some c := by
  obtain ⟨htw, hdw⟩ := takeWhile_blanks_then blanks rest c hblank hc
  have hlen : (blanks ++ c :: rest).length = blanks.length + (rest.length + 1) := by simp
  rw [hlen] at hfuel
  obtain ⟨k, rfl⟩ : ∃ k, fuel = blanks.length + (k + 1) :=
    ⟨fuel - blanks.length - 1, by omega⟩
  have hcom : (s.inNamelist && c.ch == bang) = false := by
    rcases hcomment with h | h
    · simp [h]
    · simp [h]
  refine ⟨{ s with positionInRecord := s.positionInRecord + byteLen blanks }, ?_, ?_, rfl, ?_⟩
  · exact GetNextNonBlankLoop_stops s.inNamelist s pre blanks rest c k hrec hpos hblank hc hcom
  · have hrun := SkipSpaces_none_run (blanks ++ c :: rest) pre s (blanks.length + (k + 1))
      hrec hpos (by rw [hlen]; omega)
    rw [htw, hdw] at hrun
    simpa using hrun
  · have := GetCurrentChar_boundary
      { s with positionInRecord := s.positionInRecord + byteLen blanks }
      (pre ++ blanks) (c :: rest) (by simp [hrec]) (by simp [hpos, byteLen_append])
    simpa using this

/-- C13 at the record `" !A"` outside namelist mode, where `'!'` is an
ordinary character. -/
theorem GetNextNonBlank_agrees_with_SkipSpaces_witness :
    ∃ s1 : IoStatementState,
      GetNextNonBlank 4 stateBangPlain = some (some (oneByte 33), s1) ∧
      SkipSpaces 4 none stateBangPlain = some (some (oneByte 33).ch, none, s1) ∧
      s1 = { stateBangPlain with
              positionInRecord := stateBangPlain.positionInRecord + byteLen [oneByte 32] } ∧
      GetCurrentChar s1 = some (oneByte 33) :=
  GetNextNonBlank_agrees_with_SkipSpaces stateBangPlain [] [oneByte 32] [oneByte 65]
    (oneByte 33) 4 rfl rfl (by decide) (by decide) (Or.inl rfl) (by decide)

/-! ## Termination and counters of `SkipSpaces` from any cursor -/

/-- A cursor that reads a character stands on a character boundary. -/
theorem charAt_some_boundary (record : List InputChar) :
    ∀ (pos : Nat) (c : InputChar), charAt record pos = some c →
      ∃ pre rest, record = pre ++ c :: rest ∧ pos = byteLen pre := by
  induction record with
  | nil =>
    intro pos c h
    simp [charAt] at h
  | cons x xs ih =>
    intro pos c h
    unfold charAt at h
    by_cases h0 : pos = 0
    · simp only [h0, if_true, Option.some.injEq] at h
      exact ⟨[], xs, by simp [h], by simp [byteLen, h0]⟩
    · simp only [h0, if_false] at h
      by_cases hle : x.bytes ≤ pos
      · simp only [hle, if_true] at h
        obtain ⟨pre, rest, hsplit, hp⟩ := ih (pos - x.bytes) c h
        exact ⟨x :: pre, rest, by simp [hsplit], by simp only [byteLen]; omega⟩
      · simp [hle] at h

/-- `SkipSpaces` returns from every state, for every budget, once the fuel
exceeds the number of characters of the current record. -/
theorem SkipSpaces_returns (s : IoStatementState) (remaining : Option Int) (fuel : Nat)
    (hfuel : s.record.length < fuel) :
    ∃ x, SkipSpaces fuel remaining s = some x := by
  cases hcur : GetCurrentChar s with
  | none =>
    obtain ⟨f, rfl⟩ : ∃ f, fuel = f + 1 := ⟨fuel - 1, by omega⟩
    refine ⟨(none, remaining, s), ?_⟩
    unfold SkipSpaces
    split <;> simp [hcur]
  | some c =>
    obtain ⟨pre, rest, hrec, hpos⟩ := charAt_some_boundary s.record s.positionInRecord c hcur
    have hlen : (c :: rest).length < fuel := by
      have := congrArg List.length hrec
      simp only [List.length_append, List.length_cons] at this ⊢
      omega
    cases remaining with
    | none => exact ⟨_, SkipSpaces_none_run (c :: rest) pre s fuel hrec hpos hlen⟩
    | some n =>
      by_cases hn : 0 ≤ n
      · obtain ⟨skipped, rest1, r, s1, -, -, -, hrun, -⟩ :=
          SkipSpaces_some_run (c :: rest) n.toNat pre s fuel hrec hpos hlen
        rw [Int.toNat_of_nonneg hn] at hrun
        exact ⟨_, hrun⟩
      · obtain ⟨f, rfl⟩ : ∃ f, fuel = f + 1 := ⟨fuel - 1, by omega⟩
        refine ⟨(none, some n, s), ?_⟩
        have hcond : skipSpacesCond (some n) = false := by
          simp only [skipSpacesCond, decide_eq_false_iff_not]
          omega
        simp [SkipSpaces, hcond]

/-- More fuel does not change what `SkipSpaces` returns. -/
theorem SkipSpaces_fuel_mono (fuel : Nat) :
    ∀ (remaining : Option Int) (s : IoStatementState)
      (x : Option Nat × Option Int × IoStatementState) (more : Nat),
      SkipSpaces fuel remaining s = some x → SkipSpaces (fuel + more) remaining s = some x := by
  induction fuel with
  | zero =>
    intro remaining s x more h
    simp [SkipSpaces] at h
  | succ f ih =>
    intro remaining s x more h
    have hf : f + 1 + more = (f + more) + 1 := by omega
    rw [hf]
    unfold SkipSpaces at h ⊢
    split at h
    · rename_i hcond
      simp only [hcond, if_true]
      cases hcur : GetCurrentChar s with
      | none => simpa [hcur] using h
      | some c =>
        simp only [hcur] at h ⊢
        split at h
        · rename_i hnb
          simpa [hnb] using h
        · rename_i hnb
          simp only [hnb, if_false]
          cases remaining with
          | none => exact ih _ _ _ _ h
          | some r =>
            simp only at h ⊢
            split at h
            · rename_i hlt
              simpa [hlt] using h
            · rename_i hlt
              simp only [hlt, if_false]
              exact ih _ _ _ _ h
    · rename_i hcond
      simpa [hcond] using h

/-- The three counters of `SkipSpaces` move together, from every state and
for whatever it returns: the cursor advances by some number of bytes
`consumed` and nothing else but the character count changes; without a
budget the character count stays; with a budget `n`, the budget left is
`n - consumed`, the character count has grown by `consumed` (in the
arithmetic of `std::size_t`), and nothing is consumed unless `n` pays for
it. -/
theorem SkipSpaces_counters (fuel : Nat) :
    ∀ (remaining : Option Int) (s : IoStatementState) (r : Option Nat)
      (remaining1 : Option Int) (s1 : IoStatementState),
      SkipSpaces fuel remaining s = some (r, remaining1, s1) →
      ∃ consumed : Nat,
        s1 = { s with positionInRecord := s.positionInRecord + consumed,
                      chars_ := s1.chars_ } ∧
        (remaining = none → remaining1 = none ∧ s1.chars_ = s.chars_) ∧
        (∀ n, remaining = some n →
          remaining1 = some (n - (consumed : Int)) ∧
          s1.chars_ % 2 ^ 64 = (s.chars_ + consumed) % 2 ^ 64 ∧
          (s.chars_ + consumed < 2 ^ 64 → s1.chars_ = s.chars_ + consumed) ∧
          (0 ≤ n → (consumed : Int) ≤ n) ∧
          (n ≤ 0 → consumed = 0) ∧
          (consumed = 0 → s1 = s)) := by
  induction fuel with
  | zero =>
    intro remaining s r remaining1 s1 h
    simp [SkipSpaces] at h
  | succ f ih =>
    intro remaining s r remaining1 s1 h
    have hstop : ∀ r0 : Option Nat, some (r0, remaining, s) = some (r, remaining1, s1) →
        ∃ consumed : Nat,
          s1 = { s with positionInRecord := s.positionInRecord + consumed,
                        chars_ := s1.chars_ } ∧
          (remaining = none → remaining1 = none ∧ s1.chars_ = s.chars_) ∧
          (∀ n, remaining = some n →
            remaining1 = some (n - (consumed : Int)) ∧
            s1.chars_ % 2 ^ 64 = (s.chars_ + consumed) % 2 ^ 64 ∧
            (s.chars_ + consumed < 2 ^ 64 → s1.chars_ = s.chars_ + consumed) ∧
            (0 ≤ n → (consumed : Int) ≤ n) ∧
            (n ≤ 0 → consumed = 0) ∧
            (consumed = 0 → s1 = s)) := by
      intro r0 heq
      simp only [Option.some.injEq, Prod.mk.injEq] at heq
      obtain ⟨-, hrem, hs⟩ := heq
      subst hrem hs
      refine ⟨0, by simp, fun h => ⟨h, rfl⟩, ?_⟩
      intro n hn
      refine ⟨by simp [hn], by simp, fun _ => by simp, fun h0 => by simpa using h0,
        fun _ => rfl, fun _ => rfl⟩
    unfold SkipSpaces at h
    split at h
    · rename_i hcond
      cases hcur : GetCurrentChar s with
      | none =>
        simp only [hcur] at h
        exact hstop _ h
      | some c =>
        simp only [hcur] at h
        split at h
        · exact hstop _ h
        · have hcpos := c.bytes_pos
          cases remaining with
          | none =>
            simp only at h
            obtain ⟨consumed, hs1, hnone, -⟩ := ih _ _ _ _ _ h
            obtain ⟨hrem1, hch⟩ := hnone rfl
            refine ⟨c.bytes + consumed, ?_, fun _ => ⟨hrem1, ?_⟩, ?_⟩
            · rw [hs1]
              simp [HandleRelativePosition_bytes, Nat.add_assoc]
            · rw [hch]
              simp [HandleRelativePosition_bytes]
            · intro n hn
              simp at hn
          | some n =>
            simp only at h
            split at h
            · exact hstop _ h
            · rename_i hlt
              have hnpos : 0 < n := by simpa [skipSpacesCond] using hcond
              have hle : (c.bytes : Int) ≤ n := by omega
              obtain ⟨consumed, hs1, -, hsome⟩ := ih _ _ _ _ _ h
              obtain ⟨hrem1, hmod, hexact, hbound, -, -⟩ := hsome _ rfl
              have hchars : (HandleRelativePosition (GotChar s (c.bytes : Int))
                  (c.bytes : Int)).chars_ = (s.chars_ + c.bytes) % 2 ^ 64 := by
                simp [HandleRelativePosition_bytes, GotChar_bytes_chars]
              refine ⟨c.bytes + consumed, ?_, fun hn => by simp at hn, ?_⟩
              · rw [hs1]
                simp [HandleRelativePosition_bytes, GotChar, Nat.add_assoc]
              · intro m hm
                obtain rfl : n = m := Option.some.inj hm
                refine ⟨?_, ?_, ?_, ?_, ?_, ?_⟩
                · rw [hrem1]
                  congr 1
                  push_cast
                  omega
                · rw [hmod, hchars, Nat.mod_add_mod, Nat.add_assoc]
                · intro hno
                  have h1 : (s.chars_ + c.bytes) % 2 ^ 64 = s.chars_ + c.bytes :=
                    Nat.mod_eq_of_lt (by omega)
                  rw [hchars, h1] at hexact
                  rw [hexact (by omega)]
                  omega
                · intro _
                  have := hbound (by omega)
                  push_cast
                  omega
                · intro hn0
                  omega
                · intro h0
                  omega
    · exact hstop _ h

/-- C14: from every state and once the fuel exceeds the length of the
current record, `SkipSpaces` with a budget `n` returns with the budget at
`n` minus the number of bytes the cursor advanced; the character count that
`GotChar` keeps has grown by the same number (in the arithmetic of
`std::size_t`, and exactly when that count does not wrap); the budget left
is not negative when `n ≥ 0`; a budget `n ≤ 0` consumes nothing and leaves
budget and state as they were. With no budget the cursor is all that
moves: the character count stays, so `GotChar` was not called. -/
theorem SkipSpaces_counters_in_step (s : IoStatementState) (n : Int) (fuel : Nat)
    (hfuel : s.record.length < fuel) :
    (∃ (consumed : Nat) (r : Option Nat) (s1 : IoStatementState),
      SkipSpaces fuel (some n) s = some (r, some (n - (consumed : Int)), s1) ∧
      s1.positionInRecord = s.positionInRecord + consumed ∧
      s1.chars_ % 2 ^ 64 = (s.chars_ + consumed) % 2 ^ 64 ∧
      (s.chars_ + consumed < 2 ^ 64 → s1.chars_ = s.chars_ + consumed) ∧
      (0 ≤ n → 0 ≤ n - (consumed : Int)) ∧
      (n ≤ 0 → consumed = 0 ∧ s1 = s)) ∧
    (∃ (advanced : Nat) (r : Option Nat) (s1 : IoStatementState),
      SkipSpaces fuel none s = some (r, none, s1) ∧
      s1 = { s with positionInRecord := s.positionInRecord + advanced } ∧
      s1.chars_ = s.chars_) := by
  constructor
  · obtain ⟨⟨r, remaining1, s1⟩, hrun⟩ := SkipSpaces_returns s (some n) fuel hfuel
    obtain ⟨consumed, hs1, -, hsome⟩ := SkipSpaces_counters fuel _ _ _ _ _ hrun
    obtain ⟨hrem, hmod, hexact, hbound, hzero, hsame⟩ := hsome n rfl
    subst hrem
    refine ⟨consumed, r, s1, hrun, by rw [hs1], hmod, hexact, ?_, ?_⟩
    · intro h0
      have := hbound h0
      omega
    · intro h0
      exact ⟨hzero h0, hsame (hzero h0)⟩
  · obtain ⟨⟨r, remaining1, s1⟩, hrun⟩ := SkipSpaces_returns s none fuel hfuel
    obtain ⟨advanced, hs1, hnone, -⟩ := SkipSpaces_counters fuel _ _ _ _ _ hrun
    obtain ⟨hrem, hch⟩ := hnone rfl
    subst hrem
    refine ⟨advanced, r, s1, hrun, ?_, hch⟩
    rw [hs1, hch]

/-- C14 at the record `" \tA "` with a budget of one byte. -/
theorem SkipSpaces_counters_in_step_witness :
    (∃ (consumed : Nat) (r : Option Nat) (s1 : IoStatementState),
      SkipSpaces 5 (some 1) stateBlankTabA = some (r, some (1 - (consumed : Int)), s1) ∧
      s1.positionInRecord = stateBlankTabA.positionInRecord + consumed ∧
      s1.chars_ % 2 ^ 64 = (stateBlankTabA.chars_ + consumed) % 2 ^ 64 ∧
      (stateBlankTabA.chars_ + consumed < 2 ^ 64 →
        s1.chars_ = stateBlankTabA.chars_ + consumed) ∧
      (0 ≤ (1 : Int) → 0 ≤ 1 - (consumed : Int)) ∧
      ((1 : Int) ≤ 0 → consumed = 0 ∧ s1 = stateBlankTabA)) ∧
    (∃ (advanced : Nat) (r : Option Nat) (s1 : IoStatementState),
      SkipSpaces 5 none stateBlankTabA = some (r, none, s1) ∧
      s1 = { stateBlankTabA with
              positionInRecord := stateBlankTabA.positionInRecord + advanced } ∧
      s1.chars_ = stateBlankTabA.chars_) :=
  SkipSpaces_counters_in_step stateBlankTabA 1 5 (by decide)

/-! ## Termination of `GetNextNonBlank` from any cursor -/

/-- More fuel does not change what the loop of `GetNextNonBlank` returns. -/
theorem GetNextNonBlankLoop_fuel_mono (fuel : Nat) :
    ∀ (nl : Bool) (ch : Option InputChar) (s : IoStatementState)
      (y : Option InputChar × IoStatementState) (more : Nat),
      GetNextNonBlankLoop fuel nl ch s = some y →
      GetNextNonBlankLoop (fuel + more) nl ch s = some y := by
  induction fuel with
  | zero =>
    intro nl ch s y more h
    simp [GetNextNonBlankLoop] at h
  | succ f ih =>
    intro nl ch s y more h
    have hf : f + 1 + more = (f + more) + 1 := by omega
    rw [hf]
    unfold GetNextNonBlankLoop at h ⊢
    split at h
    · rename_i hcond
      simp only [hcond, if_true]
      split at h
      · rename_i hskip
        simp only [hskip, if_true]
        exact ih _ _ _ _ _ h
      · rename_i hskip
        simp only [hskip, if_false]
        cases hadv : AdvanceRecord s with
        | mk ok s1 =>
          rw [hadv] at h
          cases ok with
          | false => simpa using h
          | true =>
            simp only at h ⊢
            exact ih _ _ _ _ _ h
    · rename_i hcond
      simpa [hcond] using h

/-- `GetNextNonBlank` returns from every state once the fuel covers every
character and record from the current record on. -/
theorem GetNextNonBlank_returns (s : IoStatementState) (fuel : Nat)
    (hfuel : scanBound (s.record :: s.laterRecords) ≤ fuel) :
    ∃ y, GetNextNonBlank fuel s = some y := by
  unfold GetNextNonBlank
  cases hcur : GetCurrentChar s with
  | some c =>
    obtain ⟨pre, rest, hrec, hpos⟩ := charAt_some_boundary s.record s.positionInRecord c hcur
    have hlen : (c :: rest).length ≤ s.record.length := by
      have := congrArg List.length hrec
      simp only [List.length_append, List.length_cons] at this ⊢
      omega
    obtain ⟨r, s1, hrun, -⟩ :=
      GetNextNonBlankLoop_run s.inNamelist s.laterRecords (c :: rest) pre s fuel hrec hpos rfl
        (by simp only [scanBound] at hfuel ⊢; omega)
    rw [hcur] at hrun
    exact ⟨_, hrun⟩
  | none =>
    simp only [scanBound] at hfuel
    obtain ⟨f, rfl⟩ : ∃ f, fuel = f + 1 := ⟨fuel - 1, by omega⟩
    cases hl : s.laterRecords with
    | nil =>
      refine ⟨(none, s), ?_⟩
      simp [GetNextNonBlankLoop, getNextNonBlankCond, getNextNonBlankSkips, AdvanceRecord, hl]
    | cons nxt rs =>
      obtain ⟨r, s1, hrun, -⟩ :=
        GetNextNonBlankLoop_run s.inNamelist rs nxt []
          { s with record := nxt, laterRecords := rs, positionInRecord := 0 } f
          (by simp) (by simp [byteLen]) rfl (by rw [hl] at hfuel; omega)
      refine ⟨(r, s1), ?_⟩
      simp only [GetNextNonBlankLoop, getNextNonBlankCond, getNextNonBlankSkips, if_true,
        Bool.false_eq_true, if_false, AdvanceRecord, hl]
      exact hrun

/-- C15: the scanning loops terminate. From every state, with every
budget, `SkipSpaces` returns once the fuel exceeds the length of the
current record, and `GetNextNonBlank` returns once the fuel covers every
character and record ahead; more fuel gives the same results. The two
provisos hold in every state: a character under the cursor is at least one
byte wide, and `HandleRelativePosition` moves the cursor by the width it
is given. -/
theorem scanning_loops_terminate (s : IoStatementState) (remaining : Option Int)
    (fuel1 fuel2 : Nat) (h1 : s.record.length < fuel1)
    (h2 : scanBound (s.record :: s.laterRecords) ≤ fuel2) :
    (∃ x, SkipSpaces fuel1 remaining s = some x ∧
      ∀ more, SkipSpaces (fuel1 + more) remaining s = some x) ∧
    (∃ y, GetNextNonBlank fuel2 s = some y ∧
      ∀ more, GetNextNonBlank (fuel2 + more) s = some y) ∧
    (∀ c, GetCurrentChar s = some c →
      1 ≤ c.bytes ∧
      (HandleRelativePosition s (c.bytes : Int)).positionInRecord
        = s.positionInRecord + c.bytes) := by
  refine ⟨?_, ?_, ?_⟩
  · obtain ⟨x, hx⟩ := SkipSpaces_returns s remaining fuel1 h1
    exact ⟨x, hx, fun more => SkipSpaces_fuel_mono fuel1 remaining s x more hx⟩
  · obtain ⟨y, hy⟩ := GetNextNonBlank_returns s fuel2 h2
    exact ⟨y, hy, fun more => GetNextNonBlankLoop_fuel_mono fuel2 _ _ s y more hy⟩
  · intro c _
    exact ⟨c.bytes_pos, by simp [HandleRelativePosition_bytes]⟩

/-- C15 at the records `" !A"`, `"B"` in namelist mode with a budget of two
bytes. -/
theorem scanning_loops_terminate_witness :
    (∃ x, SkipSpaces 4 (some 2) stateBangNamelist = some x ∧
      ∀ more, SkipSpaces (4 + more) (some 2) stateBangNamelist = some x) ∧
    (∃ y, GetNextNonBlank 7 stateBangNamelist = some y ∧
      ∀ more, GetNextNonBlank (7 + more) stateBangNamelist = some y) ∧
    (∀ c, GetCurrentChar stateBangNamelist = some c →
      1 ≤ c.bytes ∧
      (HandleRelativePosition stateBangNamelist (c.bytes : Int)).positionInRecord
        = stateBangNamelist.positionInRecord + c.bytes) :=
  scanning_loops_terminate stateBangNamelist (some 2) 4 7 (by decide) (by decide)

/-! ## List-directed `GetNextDataEdit`: slash and null values -/

/-- `GetNextNonBlank` stops on the first character ahead that is not a
blank, when that character is in the current record and does not start a
namelist comment. -/
theorem GetNextNonBlank_stops (s : IoStatementState)
    (pre blanks rest : List InputChar) (c : InputChar) (fuel : Nat)
    (hrec : s.record = pre ++ (blanks ++ c :: rest))
    (hpos : s.positionInRecord = byteLen pre)
    (hblank : ∀ b ∈ blanks, isBlank b = true) (hc : isBlank c = false)
    (hcomment : (s.inNamelist && c.ch == bang) = false)
    (hfuel : blanks.length < fuel) :
    GetNextNonBlank fuel s
      = some (some c, { s with positionInRecord := s.positionInRecord + byteLen blanks }) := by
  obtain ⟨k, rfl⟩ : ∃ k, fuel = blanks.length + (k + 1) :=
    ⟨fuel - blanks.length - 1, by omega⟩
  exact GetNextNonBlankLoop_stops s.inNamelist s pre blanks rest c k hrec hpos hblank hc hcomment

theorem slash_not_blank (c : InputChar) (h : c.ch = slash) :
    isBlank c = false ∧ (c.ch == bang) = false ∧ (c.ch == comma) = false := by
  simp [isBlank, h, slash, space, tab, bang, comma]

theorem comma_not_blank (c : InputChar) (h : c.ch = comma) :
    isBlank c = false ∧ (c.ch == bang) = false ∧ (c.ch == slash) = false := by
  simp [isBlank, h, slash, space, tab, bang, comma]

theorem advanceComplexPart_keeps (l : ListInputState) :
    (advanceComplexPart l).eatComma_ = l.eatComma_ ∧
    (advanceComplexPart l).hitSlash_ = l.hitSlash_ := by
  unfold advanceComplexPart
  split
  · exact ⟨rfl, rfl⟩
  · split <;> exact ⟨rfl, rfl⟩

/-- Once the slash flag is set, `GetNextDataEdit` is vacant and changes
nothing. -/
theorem GetNextDataEdit_after_slash (fuel : Nat) (maxRepeat : Int) (l : ListInputState)
    (io : IoStatementState) (hslash : l.hitSlash_ = true) :
    GetNextDataEdit fuel maxRepeat l io = some (none, l, io) := by
  simp [GetNextDataEdit, hslash]

/-- Once the slash flag is set, every further item of the list is left
unassigned and the statement stays as it is. -/
theorem ReadListItems_after_slash (fuel : Nat) (io : IoStatementState) (items : Nat) :
    ∀ st : StatementState ListInputState, st.derived.hitSlash_ = true →
      ReadListItems fuel items st io
        = some (List.replicate items ItemResult.unassigned, st, io) := by
  induction items with
  | zero =>
    intro st _
    rfl
  | succ k ih =>
    intro st hslash
    have hst : ({ st with derived := st.derived } : StatementState ListInputState) = st := rfl
    simp only [ReadListItems, GetNextDataEdit_after_slash fuel 1 st.derived io hslash, hst,
      ih st hslash, Option.map_some', List.replicate_succ]

/-- Separator skipping stops on the first character ahead that is not a
blank, unless that is a comma it is to consume. -/
theorem skipValueSeparator_stops (fuel : Nat) (eatComma : Bool) (io : IoStatementState)
    (pre blanks rest : List InputChar) (c : InputChar)
    (hrec : io.record = pre ++ (blanks ++ c :: rest))
    (hpos : io.positionInRecord = byteLen pre)
    (hblank : ∀ b ∈ blanks, isBlank b = true) (hc : isBlank c = false)
    (hbang : (c.ch == bang) = false)
    (hkeep : (eatComma && c.ch == comma) = false)
    (hfuel : blanks.length < fuel) :
    skipValueSeparator fuel eatComma io
      = some (some c, { io with positionInRecord := io.positionInRecord + byteLen blanks }) := by
  unfold skipValueSeparator
  rw [GetNextNonBlank_stops io pre blanks rest c fuel hrec hpos hblank hc (by simp [hbang])
    hfuel]
  simp [hkeep]

/-- Separator skipping consumes the comma after the item before, with the
blanks around it, and stops on the next character that is not a blank. -/
theorem skipValueSeparator_eats_comma (fuel : Nat) (io : IoStatementState)
    (pre blanks rest blanks2 rest2 : List InputChar) (c c2 : InputChar)
    (hrec : io.record = pre ++ (blanks ++ c :: rest))
    (hpos : io.positionInRecord = byteLen pre)
    (hblank : ∀ b ∈ blanks, isBlank b = true) (hcomma : c.ch = comma)
    (hrest : rest = blanks2 ++ c2 :: rest2)
    (hblank2 : ∀ b ∈ blanks2, isBlank b = true) (hc2 : isBlank c2 = false)
    (hbang2 : (c2.ch == bang) = false)
    (hfuel : (blanks ++ c :: rest).length < fuel) :
    skipValueSeparator fuel true io
      = some (some c2, { io with positionInRecord :=
          io.positionInRecord + byteLen blanks + c.bytes + byteLen blanks2 }) := by
  obtain ⟨hcb, hcbang, -⟩ := comma_not_blank c hcomma
  have hlen : (blanks ++ c :: rest).length
      = blanks.length + (blanks2.length + (rest2.length + 1) + 1) := by
    simp [hrest]
  rw [hlen] at hfuel
  unfold skipValueSeparator
  rw [GetNextNonBlank_stops io pre blanks rest c fuel hrec hpos hblank hcb (by simp [hcbang])
    (by omega)]
  have hceq : (c.ch == comma) = true := by simp [hcomma]
  simp only [hceq, Bool.and_self, if_true]
  have hnext := GetNextNonBlank_stops
    (HandleRelativePosition
      { io with positionInRecord := io.positionInRecord + byteLen blanks } (c.bytes : Int))
    (pre ++ blanks ++ [c]) blanks2 rest2 c2 fuel
    (by simp [HandleRelativePosition, hrec, hrest])
    (by simp [HandleRelativePosition_bytes, hpos, byteLen_append, byteLen, Nat.add_assoc])
    hblank2 hc2 (by simp [HandleRelativePosition, hbang2]) (by omega)
  rw [hnext]
  simp [HandleRelativePosition_bytes]

/-- C12: the list-directed `GetNextDataEdit`, from a cursor on a character
boundary whose first character ahead that is not a blank is `c`:

* once a `'/'` has been seen the result is vacant and nothing changes, so
  every item requested after it is left unassigned;
* with no repetition in progress, when `c` is a `'/'` the result is
  vacant, the slash flag is set and the cursor stays on the slash;
* when `c` is a comma where the first value should start, or a comma that
  follows the item before and is itself followed, blanks apart, by another
  comma (two consecutive separators), the result is present with the
  descriptor `ListDirectedNullValue`, and a slash after the consumed comma
  gives a vacant result;
* the input `1,2/` read as a list of 5 items gives the fields `1` and `2`
  and leaves items 3 to 5 unassigned, with the slash flag set and the
  statement's base, error handler included, as it was; the input `,,`
  read as 2 items gives two null values. -/
theorem GetNextDataEdit_slash_and_null
    (fuel : Nat) (maxRepeat : Int) (l : ListInputState) (io : IoStatementState)
    (pre blanks rest : List InputChar) (c : InputChar)
    (hrec : io.record = pre ++ (blanks ++ c :: rest))
    (hpos : io.positionInRecord = byteLen pre)
    (hblank : ∀ b ∈ blanks, isBlank b = true)
    (hfuel : (blanks ++ c :: rest).length < fuel) :
    (l.hitSlash_ = true →
      GetNextDataEdit fuel maxRepeat l io = some (none, l, io) ∧
      ∀ (st : StatementState ListInputState) (items : Nat), st.derived = l →
        ReadListItems fuel items st io
          = some (List.replicate items ItemResult.unassigned, st, io)) ∧
    (l.hitSlash_ = false → l.remaining_ ≤ 0 → c.ch = slash →
      GetNextDataEdit fuel maxRepeat l io
        = some (none,
            { advanceComplexPart l with eatComma_ := true, hitSlash_ := true },
            { io with positionInRecord := io.positionInRecord + byteLen blanks })) ∧
    (l.hitSlash_ = false → l.remaining_ ≤ 0 → l.eatComma_ = false → c.ch = comma →
      GetNextDataEdit fuel maxRepeat l io
        = some (some { descriptor := ListDirectedDescriptor.ListDirectedNullValue,
                       repeatCount := 1 },
            { advanceComplexPart l with eatComma_ := true },
            { io with positionInRecord := io.positionInRecord + byteLen blanks })) ∧
    (l.hitSlash_ = false → l.remaining_ ≤ 0 → l.eatComma_ = true → c.ch = comma →
      ∀ (blanks2 rest2 : List InputChar) (c2 : InputChar),
        rest = blanks2 ++ c2 :: rest2 → (∀ b ∈ blanks2, isBlank b = true) →
        (c2.ch = comma →
          GetNextDataEdit fuel maxRepeat l io
            = some (some { descriptor := ListDirectedDescriptor.ListDirectedNullValue,
                           repeatCount := 1 },
                { advanceComplexPart l with eatComma_ := true },
                { io with positionInRecord :=
                    io.positionInRecord + byteLen blanks + c.bytes + byteLen blanks2 })) ∧
        (c2.ch = slash →
          GetNextDataEdit fuel maxRepeat l io
            = some (none,
                { advanceComplexPart l with eatComma_ := true, hitSlash_ := true },
                { io with positionInRecord :=
                    io.positionInRecord + byteLen blanks + c.bytes + byteLen blanks2 }))) ∧
    ((ReadListItems 5 5 listStatementStart stateOneTwoSlash).map
        (fun x => (x.1, x.2.1.base, x.2.1.derived.hitSlash_))
      = some ([ItemResult.value [49], ItemResult.value [50], ItemResult.unassigned,
          ItemResult.unassigned, ItemResult.unassigned], listStatementStart.base, true)) ∧
    ((ReadListItems 3 2 listStatementStart stateTwoCommas).map (fun x => x.1)
      = some [ItemResult.null, ItemResult.null]) := by
  have hlen : blanks.length < fuel := by
    simp only [List.length_append, List.length_cons] at hfuel
    omega
  obtain ⟨hkeepComma, hkeepSlash⟩ := advanceComplexPart_keeps l
  refine ⟨?_, ?_, ?_, ?_, by decide, by decide⟩
  · intro hs
    refine ⟨GetNextDataEdit_after_slash fuel maxRepeat l io hs, ?_⟩
    intro st items hst
    exact ReadListItems_after_slash fuel io items st (by rw [hst]; exact hs)
  · intro hs hrem hsl
    obtain ⟨hcb, hcbang, hcc⟩ := slash_not_blank c hsl
    have hsk := skipValueSeparator_stops fuel (advanceComplexPart l).eatComma_ io pre blanks
      rest c hrec hpos hblank hcb hcbang (by simp [hcc]) hlen
    have hceq : (c.ch == slash) = true := by simp [hsl]
    simp only [GetNextDataEdit, hs, Bool.false_eq_true, if_false, not_lt.mpr hrem, hsk, hceq,
      if_true]
  · intro hs hrem heat hco
    obtain ⟨hcb, hcbang, hcs⟩ := comma_not_blank c hco
    have hsk := skipValueSeparator_stops fuel (advanceComplexPart l).eatComma_ io pre blanks
      rest c hrec hpos hblank hcb hcbang (by simp [hkeepComma, heat]) hlen
    have hceq : (c.ch == comma) = true := by simp [hco]
    simp only [GetNextDataEdit, hs, Bool.false_eq_true, if_false, not_lt.mpr hrem, hsk, hcs,
      hceq, if_true]
  · intro hs hrem heat hco blanks2 rest2 c2 hrest hblank2
    have heat0 : (advanceComplexPart l).eatComma_ = true := by rw [hkeepComma, heat]
    constructor
    · intro hco2
      obtain ⟨hcb2, hcbang2, hcs2⟩ := comma_not_blank c2 hco2
      have hsk := skipValueSeparator_eats_comma fuel io pre blanks rest blanks2 rest2 c c2
        hrec hpos hblank hco hrest hblank2 hcb2 hcbang2 hfuel
      have hceq : (c2.ch == comma) = true := by simp [hco2]
      simp only [GetNextDataEdit, hs, Bool.false_eq_true, if_false, not_lt.mpr hrem, heat0,
        hsk, hcs2, hceq, if_true]
    · intro hsl2
      obtain ⟨hcb2, hcbang2, -⟩ := slash_not_blank c2 hsl2
      have hsk := skipValueSeparator_eats_comma fuel io pre blanks rest blanks2 rest2 c c2
        hrec hpos hblank hco hrest hblank2 hcb2 hcbang2 hfuel
      have hceq : (c2.ch == slash) = true := by simp [hsl2]
      simp only [GetNextDataEdit, hs, Bool.false_eq_true, if_false, not_lt.mpr hrem, heat0,
        hsk, hceq, if_true]

/-- C12 at the record `",,"` after an item was read: the comma after the
item is consumed and the second comma gives a null value. -/
theorem GetNextDataEdit_slash_and_null_witness :
    (listStateAfterItem.hitSlash_ = true →
      GetNextDataEdit 3 1 listStateAfterItem stateTwoCommas
        = some (none, listStateAfterItem, stateTwoCommas) ∧
      ∀ (st : StatementState ListInputState) (items : Nat), st.derived = listStateAfterItem →
        ReadListItems 3 items st stateTwoCommas
          = some (List.replicate items ItemResult.unassigned, st, stateTwoCommas)) ∧
    (listStateAfterItem.hitSlash_ = false → listStateAfterItem.remaining_ ≤ 0 →
      (oneByte 44).ch = slash →
      GetNextDataEdit 3 1 listStateAfterItem stateTwoCommas
        = some (none,
            { advanceComplexPart listStateAfterItem with eatComma_ := true, hitSlash_ := true },
            { stateTwoCommas with
              positionInRecord :=
                stateTwoCommas.positionInRecord + byteLen ([] : List InputChar) })) ∧
    (listStateAfterItem.hitSlash_ = false → listStateAfterItem.remaining_ ≤ 0 →
      listStateAfterItem.eatComma_ = false → (oneByte 44).ch = comma →
      GetNextDataEdit 3 1 listStateAfterItem stateTwoCommas
        = some (some { descriptor := ListDirectedDescriptor.ListDirectedNullValue,
                       repeatCount := 1 },
            { advanceComplexPart listStateAfterItem with eatComma_ := true },
            { stateTwoCommas with
              positionInRecord :=
                stateTwoCommas.positionInRecord + byteLen ([] : List InputChar) })) ∧
    (listStateAfterItem.hitSlash_ = false → listStateAfterItem.remaining_ ≤ 0 →
      listStateAfterItem.eatComma_ = true → (oneByte 44).ch = comma →
      ∀ (blanks2 rest2 : List InputChar) (c2 : InputChar),
        [oneByte 44] = blanks2 ++ c2 :: rest2 → (∀ b ∈ blanks2, isBlank b = true) →
        (c2.ch = comma →
          GetNextDataEdit 3 1 listStateAfterItem stateTwoCommas
            = some (some { descriptor := ListDirectedDescriptor.ListDirectedNullValue,
                           repeatCount := 1 },
                { advanceComplexPart listStateAfterItem with eatComma_ := true },
                { stateTwoCommas with
                  positionInRecord :=
                    stateTwoCommas.positionInRecord + byteLen ([] : List InputChar)
                      + (oneByte 44).bytes + byteLen blanks2 })) ∧
        (c2.ch = slash →
          GetNextDataEdit 3 1 listStateAfterItem stateTwoCommas
            = some (none,
                { advanceComplexPart listStateAfterItem with
                  eatComma_ := true, hitSlash_ := true },
                { stateTwoCommas with
                  positionInRecord :=
                    stateTwoCommas.positionInRecord + byteLen ([] : List InputChar)
                      + (oneByte 44).bytes + byteLen blanks2 }))) ∧
    ((ReadListItems 5 5 listStatementStart stateOneTwoSlash).map
        (fun x => (x.1, x.2.1.base, x.2.1.derived.hitSlash_))
      = some ([ItemResult.value [49], ItemResult.value [50], ItemResult.unassigned,
          ItemResult.unassigned, ItemResult.unassigned], listStatementStart.base, true)) ∧
    ((ReadListItems 3 2 listStatementStart stateTwoCommas).map (fun x => x.1)
      = some [ItemResult.null, ItemResult.null]) :=
  GetNextDataEdit_slash_and_null 3 1 listStateAfterItem stateTwoCommas [] [] [oneByte 44]
    (oneByte 44) rfl rfl (by decide) (by decide)

end Fortran.runtime.io
